import Mathlib

/-!
Verification of the osfs path model and directory enumerator.

Go strings are modelled as lists of byte values (`GoStr := List Nat`): the
source indexes paths by byte (`path[1] == ':'`, `path[0] == '/'`), so a
byte-level model is the faithful one.  All functions are translated from the
repository sources: `path_unix.go` (namespace `Unix`), the windows path file
(namespace `Win`), the shared `FileSystem` resolver, and
`readdir_linux.go` (namespace `Linux`).
-/

/-- A Go string, as its byte sequence. Byte 47 is slash, 92 backslash, 58 colon. -/
abbrev GoStr := List Nat

/-- Byte string of an ASCII Lean string literal (used only for concrete inputs). -/
def bytes (s : String) : GoStr := s.data.map Char.toNat

/-- `unicode.IsLetter` restricted to code points below 256, as applied by the
source to a single byte cast to a rune: ASCII letters plus the Latin-1 letters
U+00AA, U+00B5, U+00BA, U+00C0..U+00D6, U+00D8..U+00F6, U+00F8..U+00FF. -/
def goIsLetterByte (b : Nat) : Bool :=
  (65 ≤ b && b ≤ 90) || (97 ≤ b && b ≤ 122) ||
  b == 0xAA || b == 0xB5 || b == 0xBA ||
  (0xC0 ≤ b && b ≤ 0xD6) || (0xD8 ≤ b && b ≤ 0xF6) || (0xF8 ≤ b && b ≤ 0xFF)

/-- Unicode simple lowercase mapping, faithful for code points ≤ 0xFF (the only
code points fed to it here: they originate from single bytes); identity above. -/
def lowerCP (c : Nat) : Nat :=
  if 65 ≤ c ∧ c ≤ 90 then c + 32
  else if 0xC0 ≤ c ∧ c ≤ 0xDE ∧ c ≠ 0xD7 then c + 32
  else c

/-- Unicode simple uppercase mapping, faithful for code points ≤ 0xFF
(including U+00B5 → U+039C and U+00FF → U+0178); identity above. -/
def upperCP (c : Nat) : Nat :=
  if 97 ≤ c ∧ c ≤ 122 then c - 32
  else if 0xE0 ≤ c ∧ c ≤ 0xFE ∧ c ≠ 0xF7 then c - 32
  else if c = 0xB5 then 0x39C
  else if c = 0xFF then 0x178
  else c

/-- UTF-8 encoding of a code point (1-, 2- or 3-byte forms suffice here). -/
def utf8Encode (c : Nat) : GoStr :=
  if c < 0x80 then [c]
  else if c < 0x800 then [0xC0 + c / 64, 0x80 + c % 64]
  else [0xE0 + c / 4096, 0x80 + (c / 64) % 64, 0x80 + c % 64]

/-- `strings.ToLower(string(rune b))` for a single byte `b`: the byte read as a
code point, simple-lowercased, re-encoded in UTF-8. -/
def goLowerStr1 (b : Nat) : GoStr := utf8Encode (lowerCP b)

/-- One step of Go UTF-8 decoding limited to 1- and 2-byte sequences:
returns the decoded code point and how many bytes it consumed; bytes that head
longer sequences are passed through unchanged by `mapCaseUtf8` below (such
inputs never reach the case-mapping call sites in this development, where every
decoded character originates from a single Latin-1 byte). -/
def utf8Decode2 : GoStr → Nat × Nat
  | [] => (0xFFFD, 1)
  | b :: rest =>
    if b < 0x80 then (b, 1)
    else if 0xC2 ≤ b ∧ b ≤ 0xDF then
      match rest with
      | c :: _ => if 0x80 ≤ c ∧ c ≤ 0xBF then ((b - 0xC0) * 64 + (c - 0x80), 2)
                  else (0xFFFD, 1)
      | [] => (0xFFFD, 1)
    else (0xFFFD, 0)

/-- Case-map a byte string rune-by-rune (model of `strings.ToLower/ToUpper`):
decode a 1- or 2-byte sequence, map, re-encode; other bytes pass unchanged. -/
def mapCaseUtf8 (f : Nat → Nat) : GoStr → GoStr
  | [] => []
  | b :: rest =>
    let d := utf8Decode2 (b :: rest)
    if d.2 = 2 then
      match rest with
      | _ :: r2 => utf8Encode (f d.1) ++ mapCaseUtf8 f r2
      | [] => utf8Encode (f d.1)
    else if d.2 = 1 ∧ b < 0x80 then utf8Encode (f d.1) ++ mapCaseUtf8 f rest
    else b :: mapCaseUtf8 f rest

/-- `strings.ToUpper` as used on drive strings. -/
def goToUpperStr (s : GoStr) : GoStr := mapCaseUtf8 upperCP s

/-- `strings.ToLower` as used on drive strings. -/
def goToLowerStr (s : GoStr) : GoStr := mapCaseUtf8 lowerCP s

/-- `filepath.FromSlash` on windows: replace each `/` byte by `\`. -/
def fromSlash (p : GoStr) : GoStr := p.map fun b => if b = 47 then 92 else b

/-- `filepath.ToSlash` on windows: replace each `\` byte by `/`. -/
def toSlash (p : GoStr) : GoStr := p.map fun b => if b = 92 then 47 else b

/-- `strings.Index` for a single byte: position of the first occurrence,
`none` standing for Go's −1. -/
def goIndex (b : Nat) : GoStr → Option Nat
  | [] => none
  | c :: rest => if c = b then some 0 else (goIndex b rest).map (· + 1)

namespace Win

/-- `isUNC` (windows file): at least two bytes, both leading bytes `/`. -/
def isUNC (path : GoStr) : Bool :=
  decide (2 ≤ path.length) && path.getD 0 0 == 47 && path.getD 1 0 == 47

/-- `splitDrive` (windows file): extract the drive letter from `/x` or `/x/...`
(single letter after a leading slash, not UNC), lowercased; otherwise
`("", path)`. -/
def splitDrive (path : GoStr) : GoStr × GoStr :=
  if path = [] then ([], [])
  else if isUNC path then ([], path)
  else
    match path with
    | 47 :: c :: rest =>
      if rest = [] then
        if goIsLetterByte c then (goLowerStr1 c, [47]) else ([], path)
      else if rest.headD 0 = 47 then
        if goIsLetterByte c then (goLowerStr1 c, rest) else ([], path)
      else ([], path)
    | _ => ([], path)

/-- `joinDrive` (windows file): empty drive returns the path; otherwise
lowercase the drive, ensure the path has a leading slash, produce `/drive path`. -/
def joinDrive (drive path : GoStr) : GoStr :=
  if drive = [] then path
  else
    let d := goToLowerStr drive
    let p := if path = [] ∨ path.headD 0 ≠ 47 then 47 :: path else path
    47 :: (d ++ p)

/-- `StripDrive` (portable wrapper): second component of `splitDrive`. -/
def StripDrive (path : GoStr) : GoStr := (splitDrive path).2

/-- `setDrive` (windows file): empty drive strips; otherwise strip and rejoin. -/
def setDrive (path drive : GoStr) : GoStr :=
  if drive = [] then StripDrive path
  else joinDrive drive (splitDrive path).2

/-- `GetDrive` (portable wrapper): first component of `splitDrive`. -/
def GetDrive (path : GoStr) : GoStr := (splitDrive path).1

/-- `toNativeUNC` (windows file): `//server/share → \\server\share`. -/
def toNativeUNC (path : GoStr) : GoStr :=
  match path with
  | 47 :: 47 :: rest => 92 :: 92 :: fromSlash rest
  | _ => fromSlash path

/-- `toNative` (windows file): UNC prefix becomes `\\`, a drive becomes an
uppercased `X:` marker, remaining slashes become backslashes. -/
def toNative (path : GoStr) : GoStr :=
  if path = [] then []
  else if isUNC path then toNativeUNC path
  else
    let d := splitDrive path
    if d.1 ≠ [] then goToUpperStr d.1 ++ 58 :: fromSlash d.2
    else fromSlash path

/-- `fromNativeUNC` (windows file): `\\server\share → //server/share`. -/
def fromNativeUNC (path : GoStr) : GoStr :=
  match path with
  | 92 :: 92 :: rest => 47 :: 47 :: toSlash rest
  | _ => toSlash path

/-- `fromNative` (windows file): `\\` prefix becomes `//`; a second byte `:`
marks a drive whose first byte is lowercased, with a leading slash ensured on
the remainder; otherwise only separators are converted. -/
def fromNative (path : GoStr) : GoStr :=
  if path = [] then []
  else if path.getD 0 0 = 92 ∧ path.getD 1 0 = 92 ∧ 2 ≤ path.length then
    fromNativeUNC path
  else if path.getD 1 0 = 58 ∧ 2 ≤ path.length then
    let drive := goLowerStr1 (path.getD 0 0)
    let rest := toSlash (path.drop 2)
    let rest := if rest = [] ∨ rest.headD 0 ≠ 47 then 47 :: rest else rest
    47 :: (drive ++ rest)
  else toSlash path

/-- `splitUNC` (windows file): server and share are the first two
slash-delimited segments after `//`; the rest defaults to `/` at the share
boundary; non-UNC input gives three empty strings. -/
def splitUNC (path : GoStr) : GoStr × GoStr × GoStr :=
  if isUNC path = false then ([], [], [])
  else
    let remaining := path.drop 2
    match goIndex 47 remaining with
    | none => (remaining, [], [])
    | some serverEnd =>
      let server := remaining.take serverEnd
      let rem2 := remaining.drop (serverEnd + 1)
      match goIndex 47 rem2 with
      | none => (server, rem2, [47])
      | some shareEnd =>
        let share := rem2.take shareEnd
        let rest := rem2.drop shareEnd
        (server, share, if rest = [] then [47] else rest)

end Win

/-- ASCII-only lowercasing of a byte. -/
def asciiLower (b : Nat) : Nat := if 65 ≤ b ∧ b ≤ 90 then b + 32 else b

/-- `strings.ToLower` as applied to a reserved-name candidate.  Modelled
byte-wise on ASCII: this agrees with Go's rune-wise lowering on the reserved
name check, because no non-ASCII rune simple-lowercases to any of the letters
appearing in the reserved device names (the only runes with ASCII lowercase
images are U+0130 → i and U+212A → k, and no reserved name contains i or k). -/
def asciiLowerStr (s : GoStr) : GoStr := s.map asciiLower

/-- Validation error, one constructor per `errors.New` site in `validatePath`. -/
inductive VErr where
  | nullByte
  | reserved (comp : GoStr)
  | invalidChar (c : Nat)
  | control
  | trailing (comp : GoStr)
deriving DecidableEq

/-- The reserved device names table (windows file). -/
def reservedNames : List GoStr :=
  [bytes "con", bytes "prn", bytes "aux", bytes "nul",
   bytes "com1", bytes "com2", bytes "com3", bytes "com4", bytes "com5",
   bytes "com6", bytes "com7", bytes "com8", bytes "com9",
   bytes "lpt1", bytes "lpt2", bytes "lpt3", bytes "lpt4", bytes "lpt5",
   bytes "lpt6", bytes "lpt7", bytes "lpt8", bytes "lpt9"]

/-- The invalid windows filename characters `< > : " | ? *`. -/
def invalidChars : List Nat := [60, 62, 58, 34, 124, 63, 42]

/-- `strings.Split(path, "/")`. -/
def splitComp : GoStr → List GoStr
  | [] => [[]]
  | 47 :: rest => [] :: splitComp rest
  | b :: rest =>
    match splitComp rest with
    | c :: cs => (b :: c) :: cs
    | [] => [[b]]

namespace Win

/-- `isReservedName` (windows file): strip from the first `.`, lowercase,
look up in the reserved table. -/
def isReservedName (name : GoStr) : Bool :=
  if name = [] then false
  else reservedNames.contains (asciiLowerStr (name.takeWhile (· ≠ 46)))

/-- The per-character loop of `validatePath`: first invalid character or
control character (below 32) found in a component.  Modelled over bytes: the
source iterates runes, but a multi-byte rune has all bytes ≥ 0x80 and decodes
to a code point ≥ 0x80 (U+FFFD for invalid sequences), so byte-wise and
rune-wise scans reject exactly the same components. -/
def scanComp : GoStr → Option VErr
  | [] => none
  | b :: rest =>
    if invalidChars.contains b then some (.invalidChar b)
    else if b < 32 then some .control
    else scanComp rest

/-- The per-component body of `validatePath`'s loop. -/
def checkComp (comp : GoStr) : Option VErr :=
  if comp = [] then none
  else if isReservedName comp then some (.reserved comp)
  else
    match scanComp comp with
    | some e => some e
    | none =>
      if comp.getLast? = some 32 ∨ comp.getLast? = some 46 then some (.trailing comp)
      else none

/-- `validatePath`'s loop over components. -/
def checkComps : List GoStr → Option VErr
  | [] => none
  | c :: cs =>
    match checkComp c with
    | some e => some e
    | none => checkComps cs

/-- `validatePath` (windows file). -/
def validatePath (path : GoStr) : Option VErr :=
  if path = [] then none
  else if 0 ∈ path then some .nullByte
  else checkComps (splitComp path)

end Win

namespace Unix

/-- `toNative` (path_unix.go): identity. -/
def toNative (path : GoStr) : GoStr := path

/-- `fromNative` (path_unix.go): identity. -/
def fromNative (path : GoStr) : GoStr := path

/-- `splitDrive` (path_unix.go): always `("", path)`. -/
def splitDrive (path : GoStr) : GoStr × GoStr := ([], path)

/-- `joinDrive` (path_unix.go): drive ignored. -/
def joinDrive (drive path : GoStr) : GoStr := path

/-- `setDrive` (path_unix.go): path unchanged. -/
def setDrive (path drive : GoStr) : GoStr := path

/-- `GetDrive` (portable wrapper over the unix `splitDrive`). -/
def GetDrive (path : GoStr) : GoStr := (splitDrive path).1

/-- `isUNC` (path_unix.go): same pattern as on windows. -/
def isUNC (path : GoStr) : Bool :=
  decide (2 ≤ path.length) && path.getD 0 0 == 47 && path.getD 1 0 == 47

/-- `splitUNC` (path_unix.go): same algorithm as on windows. -/
def splitUNC (path : GoStr) : GoStr × GoStr × GoStr :=
  if isUNC path = false then ([], [], [])
  else
    let remaining := path.drop 2
    match goIndex 47 remaining with
    | none => (remaining, [], [])
    | some serverEnd =>
      let server := remaining.take serverEnd
      let rem2 := remaining.drop (serverEnd + 1)
      match goIndex 47 rem2 with
      | none => (server, rem2, [47])
      | some shareEnd =>
        let share := rem2.take shareEnd
        let rest := rem2.drop shareEnd
        (server, share, if rest = [] then [47] else rest)

/-- `validatePath` (path_unix.go): only a NUL byte is invalid. -/
def validatePath (path : GoStr) : Option VErr :=
  if 0 ∈ path then some .nullByte else none

/-- `isReservedName` (path_unix.go): always false. -/
def isReservedName (name : GoStr) : Bool := false

/-- `isNativePath` (path_unix.go): always false. -/
def isNativePath (path : GoStr) : Bool := false

end Unix

/-- `path.IsAbs`: nonempty and starting with `/`. -/
def goPathIsAbs (p : GoStr) : Bool := p.headD 0 == 47 && !(p.isEmpty)

/-- `dropWhile` never lengthens a list (termination helper for `cleanCore`). -/
theorem lenDropWhileLe (p : Nat → Bool) (l : List Nat) :
    (l.dropWhile p).length ≤ l.length := by
  induction l with
  | nil => simp
  | cons a t ih =>
    simp only [List.dropWhile]
    split
    · calc (t.dropWhile p).length ≤ t.length := ih
        _ ≤ t.length + 1 := by omega
    · simp

/-- The backtracking step of `path.Clean`'s `..` handling: starting from the
write index `w = length − 1`, decrement while above `dotdot` and the byte at
the write index is not a slash; the kept output is the prefix of that length. -/
def btIdx (orig : GoStr) (dd : Nat) (w : Nat) : Nat :=
  if dd < w ∧ orig.getD w 0 ≠ 47 then btIdx orig dd (w - 1) else w
termination_by w
decreasing_by omega

/-- The main loop of Go's `path.Clean` (the `lazybuf` algorithm), with the
unread input, the output buffer and the `dotdot` barrier as explicit state. -/
def cleanCore (rooted : Bool) (inp out : GoStr) (dd : Nat) : GoStr :=
  match h : inp with
  | [] => out
  | b :: rest =>
    if b = 47 then cleanCore rooted rest out dd
    else if b = 46 ∧ (rest = [] ∨ rest.headD 0 = 47) then cleanCore rooted rest out dd
    else if b = 46 ∧ rest.headD 0 = 46 ∧ (rest.tail = [] ∨ rest.tail.headD 0 = 47) ∧ rest ≠ [] then
      let rest2 := rest.tail
      if dd < out.length then
        cleanCore rooted rest2 (out.take (btIdx out dd (out.length - 1))) dd
      else if rooted = false then
        let out2 := (if out ≠ [] then out ++ [47] else out) ++ [46, 46]
        cleanCore rooted rest2 out2 out2.length
      else cleanCore rooted rest2 out dd
    else
      let seg := inp.takeWhile (· ≠ 47)
      let rest2 := inp.dropWhile (· ≠ 47)
      let out2 := (if (rooted ∧ out.length ≠ 1) ∨ (¬ rooted ∧ out.length ≠ 0)
                   then out ++ [47] else out) ++ seg
      cleanCore rooted rest2 out2 dd
termination_by inp.length
decreasing_by
  · simp_all
  · simp_all
  · simp_all [List.length_tail]; omega
  · simp_all [List.length_tail]; omega
  · simp_all [List.length_tail]; omega
  · have h1 := lenDropWhileLe (fun x => !decide (x = 47)) rest
    have h2 := lenDropWhileLe (fun x => decide (x ≠ 47)) rest
    simp_all [List.dropWhile]
    omega

/-- Go's `path.Clean`. -/
def goPathClean (p : GoStr) : GoStr :=
  if p = [] then [46]
  else
    let rooted := p.headD 0 = 47
    let out :=
      if rooted then cleanCore true (p.drop 1) [47] 1
      else cleanCore false p [] 0
    if out = [] then [46] else out

/-- Go's `path.Join` restricted to its two-argument uses in the resolver:
skip empty elements, join the rest with a slash, then `Clean`; all-empty
input yields the empty string. -/
def goPathJoin (a b : GoStr) : GoStr :=
  if a = [] ∧ b = [] then []
  else if a = [] then goPathClean b
  else goPathClean (a ++ 47 :: b)

namespace Win

/-- Modelled from the spec: the windows `isNativePath` called by the resolver
is not under `src/` (only the unix variant, constantly false, is).  The
spec's `resolve` has no native-path detection step — empty, relative and
absolute canonical inputs are the only cases it describes — so the missing
function is modelled as constantly false, matching the unix family's
definition. -/
def isNativePath (path : GoStr) : Bool := false

/-- `FileSystem.toNativePath`, windows family, with the stored working
directory passed explicitly. -/
def toNativePath (cwd name : GoStr) : GoStr :=
  if name = [] then toNative cwd
  else if isNativePath name then name
  else if goPathIsAbs name = false then toNative (goPathJoin cwd name)
  else if GetDrive name = [] ∧ GetDrive cwd ≠ [] then
    toNative (setDrive name (GetDrive cwd))
  else toNative name

end Win

namespace Unix

/-- `FileSystem.toNativePath`, unix family. -/
def toNativePath (cwd name : GoStr) : GoStr :=
  if name = [] then toNative cwd
  else if isNativePath name then name
  else if goPathIsAbs name = false then toNative (goPathJoin cwd name)
  else if GetDrive name = [] ∧ GetDrive cwd ≠ [] then
    toNative (setDrive name (GetDrive cwd))
  else toNative name

end Unix

/-- The `FileSystem` handle: its only field of state is the stored working
directory (a canonical, forward-slash path). -/
structure FS where
  cwd : GoStr
deriving DecidableEq

/-- An `*os.PathError` value: operation, path, wrapped error. -/
structure PathError where
  op : GoStr
  path : GoStr
  err : GoStr
deriving DecidableEq

namespace Win

/-- `FileSystem.Chdir`, windows family: the external directory check is the
`isDir` parameter (a stand-in for `os.Stat` + `IsDir`); result and new state. -/
def Chdir (isDir : GoStr → Bool) (fs : FS) (name : GoStr) : Option PathError × FS :=
  let nativePath := toNativePath fs.cwd name
  if isDir nativePath = false then
    (some ⟨bytes "chdir", name, bytes "not a directory"⟩, fs)
  else (none, ⟨fromNative nativePath⟩)

end Win

namespace Unix

/-- `FileSystem.Chdir`, unix family. -/
def Chdir (isDir : GoStr → Bool) (fs : FS) (name : GoStr) : Option PathError × FS :=
  let nativePath := toNativePath fs.cwd name
  if isDir nativePath = false then
    (some ⟨bytes "chdir", name, bytes "not a directory"⟩, fs)
  else (none, ⟨fromNative nativePath⟩)

end Unix

/-- One call on the `FileSystem` API, one constructor per exported method of
the handle that takes paths (the state-free accessors `Getwd`/`TempDir`
included). -/
inductive Op where
  | opOpen (name : GoStr)
  | opCreate (name : GoStr)
  | opTruncate (name : GoStr) (size : Int)
  | opMkdir (name : GoStr) (perm : Nat)
  | opMkdirAll (name : GoStr) (perm : Nat)
  | opOpenFile (name : GoStr) (flag : Int) (perm : Nat)
  | opRemove (name : GoStr)
  | opRename (oldpath newpath : GoStr)
  | opRemoveAll (name : GoStr)
  | opStat (name : GoStr)
  | opChmod (name : GoStr) (mode : Nat)
  | opChtimes (name : GoStr)
  | opChown (name : GoStr) (uid gid : Int)
  | opLstat (name : GoStr)
  | opLchown (name : GoStr) (uid gid : Int)
  | opReadlink (name : GoStr)
  | opSymlink (oldname newname : GoStr)
  | opReadDir (name : GoStr)
  | opReadFile (name : GoStr)
  | opGetwd
  | opTempDir
  | opChdir (name : GoStr)

/-- The working-directory effect of each `FileSystem` method, windows family.
Every method other than `Chdir` only reads `fs.cwd` (through `toNativePath`)
and hands the result to an `os.*` call; none of their bodies assigns to
`fs.cwd`, so their state effect is the identity.  `Chdir` is translated from
its body. -/
def Win.applyOp (isDir : GoStr → Bool) (fs : FS) : Op → FS
  | .opChdir name => (Win.Chdir isDir fs name).2
  | _ => fs

/-- The working-directory effect of each `FileSystem` method, unix family. -/
def Unix.applyOp (isDir : GoStr → Bool) (fs : FS) : Op → FS
  | .opChdir name => (Unix.Chdir isDir fs name).2
  | _ => fs

namespace Linux

/-- `fs.ModeDir` (io/fs bit constants). -/
def ModeDir : Nat := 2 ^ 31

/-- `fs.ModeSymlink`. -/
def ModeSymlink : Nat := 2 ^ 27

/-- `fs.ModeDevice`. -/
def ModeDevice : Nat := 2 ^ 26

/-- `fs.ModeNamedPipe`. -/
def ModeNamedPipe : Nat := 2 ^ 25

/-- `fs.ModeSocket`. -/
def ModeSocket : Nat := 2 ^ 24

/-- `fs.ModeCharDevice`. -/
def ModeCharDevice : Nat := 2 ^ 21

/-- `fs.ModeIrregular`. -/
def ModeIrregular : Nat := 2 ^ 19

/-- `fs.ModeType`, the type-bit mask. -/
def ModeType : Nat :=
  ModeDir ||| ModeSymlink ||| ModeNamedPipe ||| ModeSocket |||
  ModeDevice ||| ModeCharDevice ||| ModeIrregular

/-- One raw `syscall.Dirent` record as presented by the getdents buffer:
inode, `d_type` tag, and the raw name window that `bytes.IndexByte` scans for
a NUL terminator. -/
structure Dirent where
  ino : Nat
  dtype : Nat
  nameBuf : GoStr
deriving DecidableEq

/-- Name extraction from the record's name window (`bytes.IndexByte(buf, 0)`
plus slicing): the bytes before the first NUL, or `none` when no NUL is found
(Go's `nameLen < 0`). -/
def extractName (buf : GoStr) : Option GoStr :=
  if 0 ∈ buf then some (buf.takeWhile (· ≠ 0)) else none

/-- The `dirEntry` struct of readdir_linux.go: name, type bits, parent path. -/
structure DirEntryE where
  name : GoStr
  typ : Nat
  dirPath : GoStr
deriving DecidableEq

/-- Outcome of the external `os.Lstat` used by the `DT_UNKNOWN` fallback. -/
inductive LstatRes where
  | ok (mode : Nat)
  | notExist
  | err (e : GoStr)

/-- An error escaping `readDirOptimized`: an `os.PathError` built by the
function itself, or an error from `os.Lstat` returned as-is. -/
inductive RdErr where
  | pathErr (op path err : GoStr)
  | raw (e : GoStr)
deriving DecidableEq

/-- Outcome of one iteration of the record-decoding loop. -/
inductive DecodeStep where
  | skip
  | entry (e : DirEntryE)
  | fatal (e : RdErr)

/-- The body of the decoding loop of `readDirOptimized` for one record:
records with inode 0 are skipped, names without a terminator are skipped,
`.` and `..` are skipped, each recognized `d_type` maps to its mode bits,
`DT_UNKNOWN` (0) falls back to a single lstat (not-exist skips, other errors
are fatal), and unrecognized tags are skipped.
`d_type` values: FIFO 1, CHR 2, DIR 4, BLK 6, REG 8, LNK 10, SOCK 12. -/
def decodeRec (lstat : GoStr → LstatRes) (dirPath : GoStr) (d : Dirent) : DecodeStep :=
  if d.ino = 0 then .skip
  else
    match extractName d.nameBuf with
    | none => .skip
    | some name =>
      if name = [46] ∨ name = [46, 46] then .skip
      else if d.dtype = 8 then .entry ⟨name, 0, dirPath⟩
      else if d.dtype = 4 then .entry ⟨name, ModeDir, dirPath⟩
      else if d.dtype = 10 then .entry ⟨name, ModeSymlink, dirPath⟩
      else if d.dtype = 6 then .entry ⟨name, ModeDevice, dirPath⟩
      else if d.dtype = 2 then .entry ⟨name, ModeDevice ||| ModeCharDevice, dirPath⟩
      else if d.dtype = 1 then .entry ⟨name, ModeNamedPipe, dirPath⟩
      else if d.dtype = 12 then .entry ⟨name, ModeSocket, dirPath⟩
      else if d.dtype = 0 then
        match lstat (dirPath ++ 47 :: name) with
        | .notExist => .skip
        | .err e => .fatal (.raw e)
        | .ok m => .entry ⟨name, m &&& ModeType, dirPath⟩
      else .skip

/-- The decoding loop over the stream of records: accumulates entries in
record order, aborting the whole call on a fatal step. -/
def decodeAll (lstat : GoStr → LstatRes) (dirPath : GoStr) :
    List Dirent → Except RdErr (List DirEntryE)
  | [] => .ok []
  | d :: ds =>
    match decodeRec lstat dirPath d with
    | .skip => decodeAll lstat dirPath ds
    | .entry e => (decodeAll lstat dirPath ds).map (e :: ·)
    | .fatal er => .error er

/-- Go's `<` on strings: byte-wise lexicographic order. -/
def lexLt : GoStr → GoStr → Bool
  | [], [] => false
  | [], _ :: _ => true
  | _ :: _, [] => false
  | a :: as, b :: bs => if a < b then true else if a = b then lexLt as bs else false

/-- The name comparison `entries[j].Name() < entries[j-1].Name()`. -/
def entLt (a b : DirEntryE) : Bool := lexLt a.name b.name

/-- Go's parallel-assignment swap `entries[i], entries[j] = entries[j], entries[i]`
on a list (identity when an index is out of range, which never happens in the
sorting code below). -/
def swapL (l : List α) (i j : Nat) : List α :=
  match l[i]?, l[j]? with
  | some a, some b => (l.set i b).set j a
  | _, _ => l

/-- The inner loop of the insertion sort in `sortDirEntries`:
`for j := i; j > 0 && lt(entries[j], entries[j-1]); j--` with an adjacent swap
in the body. -/
def insInner (lt : α → α → Bool) : List α → Nat → List α
  | l, 0 => l
  | l, j + 1 =>
    match l[j + 1]?, l[j]? with
    | some ej, some ejm =>
      if lt ej ejm then insInner lt (swapL l (j + 1) j) j else l
    | _, _ => l

/-- The outer loop of the insertion sort: `for i := 1; i < n; i++` (`n` is the
length taken before the loop). -/
def insOuter (lt : α → α → Bool) (l : List α) (n i : Nat) : List α :=
  if i < n then insOuter lt (insInner lt l i) n (i + 1) else l
termination_by n - i
decreasing_by omega

/-- The partition loop of the quicksort in `sortDirEntries`:
`for j := low; j < high; j++ { if lt(entries[j], pivot) { i++; swap(i, j) } }`.
Go's running index `i` starts at `low − 1`; it is carried here as `i1 = i + 1`
to stay in `Nat`, so a swap happens at `(i1, j)` and then `i1` increments. -/
def partLoop (lt : α → α → Bool) (pivot : α) (l : List α) (i1 j high : Nat) :
    List α × Nat :=
  if j < high then
    match l[j]? with
    | some ej =>
      if lt ej pivot then partLoop lt pivot (swapL l i1 j) (i1 + 1) (j + 1) high
      else partLoop lt pivot l i1 (j + 1) high
    | none => partLoop lt pivot l i1 (j + 1) high
  else (l, i1)
termination_by high - j
decreasing_by all_goals omega

/-- The final pivot index of `partLoop` stays within `[i1, high]`
(termination helper for `qs`). -/
theorem partLoop_snd_le (lt : α → α → Bool) (pivot : α) :
    ∀ (l : List α) (i1 j high : Nat), i1 ≤ j → j ≤ high →
    i1 ≤ (partLoop lt pivot l i1 j high).2 ∧ (partLoop lt pivot l i1 j high).2 ≤ high := by
  intro l i1 j high
  induction l, i1, j, high using partLoop.induct lt pivot with
  | case1 l i1 j high hj ej hget hlt ih =>
    intro h1 h2
    unfold partLoop
    simp only [if_pos hj, hget, if_pos hlt]
    have := ih (by omega) (by omega)
    omega
  | case2 l i1 j high hj ej hget hlt ih =>
    intro h1 h2
    unfold partLoop
    simp only [if_pos hj, hget, if_neg hlt]
    have := ih (by omega) (by omega)
    omega
  | case3 l i1 j high hj hget ih =>
    intro h1 h2
    unfold partLoop
    simp only [if_pos hj, hget]
    have := ih (by omega) (by omega)
    omega
  | case4 l i1 j high hj =>
    intro h1 h2
    unfold partLoop
    simp only [if_neg hj]
    omega

/-- The recursive quicksort of `sortDirEntries`.  Go's bounds are ints and the
recursive calls can pass `low − 1 = −1`; with `Nat` truncation the guard
`low ≥ high` fires in exactly the same cases, so the behavior is unchanged. -/
def qs (lt : α → α → Bool) (l : List α) (low high : Nat) : List α :=
  if high ≤ low then l
  else
    match l[high]? with
    | none => l
    | some pivot =>
      let p := partLoop lt pivot l low low high
      let l2 := swapL p.1 p.2 high
      qs lt (qs lt l2 low (p.2 - 1)) (p.2 + 1) high
termination_by high + 1 - low
decreasing_by
  · have hb := partLoop_snd_le lt pivot l low low high (le_refl low) (by omega)
    omega
  · have hb := partLoop_snd_le lt pivot l low low high (le_refl low) (by omega)
    omega

/-- `sortDirEntries` (readdir_linux.go): insertion sort below 20 entries,
quicksort from 20 up. -/
def sortDirEntries (entries : List DirEntryE) : List DirEntryE :=
  let n := entries.length
  if n < 20 then insOuter entLt entries n 1
  else qs entLt entries 0 (n - 1)

/-- `readDirOptimized` (readdir_linux.go) over an abstract view of the OS:
`openRes` is the outcome of `syscall.Open` (an errno or the stream of raw
records the getdents loop will deliver), `lstat` the external `os.Lstat`.
A failed open is reported as a `PathError` with op `"open"` and the directory
path attached; otherwise the records are decoded and the entries sorted.
The directory fd is closed by `defer` on every exit path; mid-stream
`Getdents` failures (also fatal with the path attached) are outside this
record-level model. -/
def readDirOptimized (openRes : Except GoStr (List Dirent))
    (lstat : GoStr → LstatRes) (dirPath : GoStr) : Except RdErr (List DirEntryE) :=
  match openRes with
  | .error e => .error (.pathErr (bytes "open") dirPath e)
  | .ok recs =>
    match decodeAll lstat dirPath recs with
    | .error er => .error er
    | .ok entries => .ok (sortDirEntries entries)

end Linux

/-- The shape tested by the windows `splitDrive`: a leading slash, a second
byte whose code point is a letter, and either nothing after it or a slash. -/
def driveShape (p : GoStr) : Bool :=
  match p with
  | 47 :: c :: rest => goIsLetterByte c && (rest.isEmpty || rest.headD 0 == 47)
  | _ => false

/-- A bare drive-rooted path `/x` (a letter and nothing after it). -/
def bareDrive (p : GoStr) : Bool :=
  match p with
  | [47, c] => goIsLetterByte c && 97 ≤ c && c ≤ 122
  | _ => false

/-- Standard UTF-8 validity of a byte sequence. -/
def validUtf8 : GoStr → Bool
  | [] => true
  | b :: rest =>
    if b < 0x80 then validUtf8 rest
    else if 0xC2 ≤ b ∧ b ≤ 0xDF then
      match rest with
      | c :: r => (0x80 ≤ c && c ≤ 0xBF) && validUtf8 r
      | [] => false
    else if b = 0xE0 then
      match rest with
      | c :: c2 :: r => (0xA0 ≤ c && c ≤ 0xBF) && (0x80 ≤ c2 && c2 ≤ 0xBF) && validUtf8 r
      | _ => false
    else if (0xE1 ≤ b ∧ b ≤ 0xEF) ∧ b ≠ 0xED then
      match rest with
      | c :: c2 :: r => (0x80 ≤ c && c ≤ 0xBF) && (0x80 ≤ c2 && c2 ≤ 0xBF) && validUtf8 r
      | _ => false
    else if b = 0xED then
      match rest with
      | c :: c2 :: r => (0x80 ≤ c && c ≤ 0x9F) && (0x80 ≤ c2 && c2 ≤ 0xBF) && validUtf8 r
      | _ => false
    else if b = 0xF0 then
      match rest with
      | c :: c2 :: c3 :: r =>
        (0x90 ≤ c && c ≤ 0xBF) && (0x80 ≤ c2 && c2 ≤ 0xBF) && (0x80 ≤ c3 && c3 ≤ 0xBF) &&
        validUtf8 r
      | _ => false
    else if 0xF1 ≤ b ∧ b ≤ 0xF3 then
      match rest with
      | c :: c2 :: c3 :: r =>
        (0x80 ≤ c && c ≤ 0xBF) && (0x80 ≤ c2 && c2 ≤ 0xBF) && (0x80 ≤ c3 && c3 ≤ 0xBF) &&
        validUtf8 r
      | _ => false
    else if b = 0xF4 then
      match rest with
      | c :: c2 :: c3 :: r =>
        (0x80 ≤ c && c ≤ 0x8F) && (0x80 ≤ c2 && c2 ≤ 0xBF) && (0x80 ≤ c3 && c3 ≤ 0xBF) &&
        validUtf8 r
      | _ => false
    else false

/-- Modelled from the spec: a canonical path accepted by the Path Grammar as
well-formed.  Per the spec's CanonicalPath data model and Path Grammar: the
path is a text string (valid UTF-8) that uses `/` as its separator (so no
backslash bytes), passes `validatePath` on the drive-letter family, and
carries its drive letter — when it has one — as a single lowercase ASCII
letter. -/
def wellFormedCanonical (p : GoStr) : Bool :=
  validUtf8 p && !(p.contains 92) && decide (Win.validatePath p = none) &&
  (!(driveShape p) || (97 ≤ p.getD 1 0 && p.getD 1 0 ≤ 122))

/-- Modelled from the spec (claim C7's wording): reserved-name test —
case-insensitive match, after stripping everything from the first `.` onward,
against {CON, PRN, AUX, NUL, COM1–COM9, LPT1–LPT9}. -/
def specReserved (name : GoStr) : Bool :=
  reservedNames.contains (asciiLowerStr (name.takeWhile (· ≠ 46)))

/-- Modelled from the spec (claim C7's wording): a slash-delimited component
is rejected when it is a reserved device name, contains one of `< > : " | ? *`
or an ASCII control character (below 32), or ends in a space or period. -/
def specComponentBad (comp : GoStr) : Bool :=
  specReserved comp ||
  comp.any (fun b => invalidChars.contains b || b < 32) ||
  (!(comp.isEmpty) && (comp.getLast? == some 32 || comp.getLast? == some 46))

/-- Modelled from the spec (claim C7's wording): the drive-letter family
rejects exactly paths containing a NUL byte or some bad component. -/
def specWinRejects (p : GoStr) : Bool :=
  decide (0 ∈ p) || (splitComp p).any specComponentBad

/-! ## Path grammar lemmas -/

/-- Any byte classified as a letter is at least 65. -/
theorem letter_ge_65 (c : Nat) (h : goIsLetterByte c = true) : 65 ≤ c := by
  simp [goIsLetterByte] at h
  omega

/-- Lowercasing fixes lowercase ASCII code points. -/
theorem lowerCP_of_lower (c : Nat) (h1 : 97 ≤ c) (h2 : c ≤ 122) : lowerCP c = c := by
  unfold lowerCP
  rw [if_neg (by omega), if_neg (by omega)]

/-- Lowercasing shifts uppercase ASCII code points by 32. -/
theorem lowerCP_of_upper (c : Nat) (h1 : 65 ≤ c) (h2 : c ≤ 90) : lowerCP c = c + 32 := by
  unfold lowerCP
  rw [if_pos ⟨h1, h2⟩]

/-- ASCII code points encode as themselves. -/
theorem utf8Encode_ascii (c : Nat) (h : c < 128) : utf8Encode c = [c] := by
  unfold utf8Encode
  rw [if_pos h]

/-- `goLowerStr1` on a lowercase ASCII letter. -/
theorem goLowerStr1_of_lower (c : Nat) (h1 : 97 ≤ c) (h2 : c ≤ 122) :
    goLowerStr1 c = [c] := by
  unfold goLowerStr1
  rw [lowerCP_of_lower c h1 h2, utf8Encode_ascii c (by omega)]

/-- `goLowerStr1` on an uppercase ASCII letter. -/
theorem goLowerStr1_of_upper (c : Nat) (h1 : 65 ≤ c) (h2 : c ≤ 90) :
    goLowerStr1 c = [c + 32] := by
  unfold goLowerStr1
  rw [lowerCP_of_upper c h1 h2, utf8Encode_ascii (c + 32) (by omega)]

/-- `splitDrive` on a bare drive `/x` with a letter byte. -/
theorem splitDrive_bare (c : Nat) (h : goIsLetterByte c = true) :
    Win.splitDrive [47, c] = (goLowerStr1 c, [47]) := by
  have hc : ¬ c = 47 := by have := letter_ge_65 c h; omega
  unfold Win.splitDrive
  rw [if_neg (by simp), if_neg (by simp [Win.isUNC, hc])]
  simp [h]

/-- `splitDrive` on `/x/...` with a letter byte. -/
theorem splitDrive_mid (c : Nat) (t : GoStr) (h : goIsLetterByte c = true) :
    Win.splitDrive (47 :: c :: 47 :: t) = (goLowerStr1 c, 47 :: t) := by
  have hc : ¬ c = 47 := by have := letter_ge_65 c h; omega
  unfold Win.splitDrive
  rw [if_neg (by simp), if_neg (by simp [Win.isUNC, hc])]
  simp [h]

/-- `splitDrive` returns `("", path)` for every input not of the drive shape. -/
theorem splitDrive_none (p : GoStr) (h : driveShape p = false) :
    Win.splitDrive p = ([], p) := by
  unfold Win.splitDrive
  split
  · rename_i hp; rw [hp]
  · split
    · rfl
    · split
      · rename_i c rest hne hunc
        simp only [driveShape] at h
        rcases Bool.and_eq_false_iff.mp h with hl | hr
        · simp [hl]
        · have h1 : ¬ rest = [] := by
            intro he
            subst he
            simp at hr
          have h2 : ¬ rest.headD 0 = 47 := by
            intro he
            rw [List.headD_eq_head?] at he
            simp [he] at hr
          rw [if_neg h1, if_neg h2]
      · rfl

/-- Lowercase ASCII letters are letters. -/
theorem letter_of_lower (c : Nat) (h1 : 97 ≤ c) (h2 : c ≤ 122) :
    goIsLetterByte c = true := by
  simp [goIsLetterByte]
  omega

/-- Uppercase ASCII letters are letters. -/
theorem letter_of_upper (c : Nat) (h1 : 65 ≤ c) (h2 : c ≤ 90) :
    goIsLetterByte c = true := by
  simp [goIsLetterByte]
  omega

/-- `lowerCP` stays below 128 on ASCII input. -/
theorem lowerCP_lt_128 (c : Nat) (h : c < 128) : lowerCP c < 128 := by
  unfold lowerCP
  split
  · omega
  · split <;> omega

/-- `goToLowerStr` on a single ASCII byte is `lowerCP` of the byte. -/
theorem goToLowerStr_single (c : Nat) (h : c < 128) : goToLowerStr [c] = [lowerCP c] := by
  have hl := lowerCP_lt_128 c h
  simp [goToLowerStr, mapCaseUtf8, utf8Decode2, h, utf8Encode_ascii _ hl]

/-- `goToLowerStr` fixes a single lowercase ASCII letter. -/
theorem goToLowerStr_single_lower (c : Nat) (h1 : 97 ≤ c) (h2 : c ≤ 122) :
    goToLowerStr [c] = [c] := by
  rw [goToLowerStr_single c (by omega), lowerCP_of_lower c h1 h2]

/-- `joinDrive` of a one-byte lowercase drive and a slash-rooted path. -/
theorem joinDrive_single (c : Nat) (t : GoStr) (h1 : 97 ≤ c) (h2 : c ≤ 122) :
    Win.joinDrive [c] (47 :: t) = 47 :: c :: 47 :: t := by
  unfold Win.joinDrive
  rw [if_neg (by simp)]
  simp [goToLowerStr_single_lower c h1 h2]

/-- C2 (amended): on the drive-letter family, `joinDrive ∘ splitDrive`
reconstructs every non-drive-shaped path exactly and every drive-rooted path
`/x/...` up to lowercasing of the drive letter, while a bare drive `/x`
is reconstructed as `/x/` — with a trailing slash added, the one deviation
the counterexample forces; on the non-drive-letter family the composition is
the identity on all paths. -/
theorem c2_theorem :
    (∀ p : GoStr, driveShape p = false →
      Win.joinDrive (Win.splitDrive p).1 (Win.splitDrive p).2 = p) ∧
    (∀ (c : Nat) (t : GoStr), 97 ≤ c → c ≤ 122 →
      Win.joinDrive (Win.splitDrive (47 :: c :: 47 :: t)).1
        (Win.splitDrive (47 :: c :: 47 :: t)).2 = 47 :: c :: 47 :: t) ∧
    (∀ (c : Nat) (t : GoStr), 65 ≤ c → c ≤ 90 →
      Win.joinDrive (Win.splitDrive (47 :: c :: 47 :: t)).1
        (Win.splitDrive (47 :: c :: 47 :: t)).2 = 47 :: (c + 32) :: 47 :: t) ∧
    (∀ c : Nat, 97 ≤ c → c ≤ 122 →
      Win.joinDrive (Win.splitDrive [47, c]).1 (Win.splitDrive [47, c]).2 = [47, c, 47]) ∧
    (∀ p : GoStr, Unix.joinDrive (Unix.splitDrive p).1 (Unix.splitDrive p).2 = p) := by
  refine ⟨?_, ?_, ?_, ?_, ?_⟩
  · intro p hp
    rw [splitDrive_none p hp]
    rfl
  · intro c t h1 h2
    rw [splitDrive_mid c t (letter_of_lower c h1 h2), goLowerStr1_of_lower c h1 h2]
    exact joinDrive_single c t h1 h2
  · intro c t h1 h2
    rw [splitDrive_mid c t (letter_of_upper c h1 h2), goLowerStr1_of_upper c h1 h2]
    exact joinDrive_single (c + 32) t (by omega) (by omega)
  · intro c h1 h2
    rw [splitDrive_bare c (letter_of_lower c h1 h2), goLowerStr1_of_lower c h1 h2]
    exact joinDrive_single c [] h1 h2
  · intro p
    rfl

/-- C2 counterexample: the claim includes the bare drive path `/c`, but the
composition appends a trailing slash there: it rebuilds `/c/`, which is not
`/c` (and not a drive-casing variant of it). -/
theorem c2_counterexample :
    Win.joinDrive (Win.splitDrive (bytes "/c")).1 (Win.splitDrive (bytes "/c")).2
      = bytes "/c/" ∧ bytes "/c/" ≠ bytes "/c" := by decide

/-- C2 witness. -/
theorem c2_witness :
    (97 ≤ 99 ∧ 99 ≤ 122) ∧
    Win.joinDrive (Win.splitDrive (47 :: 99 :: 47 :: [102])).1
      (Win.splitDrive (47 :: 99 :: 47 :: [102])).2 = 47 :: 99 :: 47 :: [102] :=
  ⟨⟨by decide, by decide⟩, c2_theorem.2.1 99 [102] (by decide) (by decide)⟩

/-- C8 (amended): `splitDrive` splits a drive exactly when the path is
`/x` or `/x/...` for a byte `x` that is a letter as a Unicode code point —
the ASCII letters and, beyond the claim's wording, the Latin-1 letter bytes —
returning the simple-lowercased letter and the remainder (defaulting to `/`
for a bare drive); every other input, including every UNC path, yields
`("", path)` unchanged. -/
theorem c8_theorem :
    (∀ c : Nat, goIsLetterByte c = true →
      Win.splitDrive [47, c] = (goLowerStr1 c, [47])) ∧
    (∀ (c : Nat) (t : GoStr), goIsLetterByte c = true →
      Win.splitDrive (47 :: c :: 47 :: t) = (goLowerStr1 c, 47 :: t)) ∧
    (∀ p : GoStr, driveShape p = false → Win.splitDrive p = ([], p)) ∧
    Win.splitDrive (bytes "/c/foo/bar") = (bytes "c", bytes "/foo/bar") ∧
    Win.splitDrive (bytes "/C/foo") = (bytes "c", bytes "/foo") ∧
    Win.splitDrive (bytes "//server/share") = ([], bytes "//server/share") :=
  ⟨splitDrive_bare, splitDrive_mid, splitDrive_none, by decide, by decide, by decide⟩

/-- C8 counterexample: byte 0xC0 is not an ASCII letter, so under the claim
`splitDrive` on the two-byte path `/\xC0` should return the input unchanged
with no drive; the code classifies the byte as a letter (`unicode.IsLetter`
on the code point U+00C0) and returns the lowercased two-byte UTF-8 drive. -/
theorem c8_counterexample :
    Win.splitDrive [47, 192] = ([195, 160], [47]) ∧
    Win.splitDrive [47, 192] ≠ ([], [47, 192]) := by decide

/-- C8 witness. -/
theorem c8_witness :
    goIsLetterByte 99 = true ∧ Win.splitDrive [47, 99] = (goLowerStr1 99, [47]) :=
  ⟨by decide, c8_theorem.1 99 (by decide)⟩

/-- `goIndex` misses when the byte is absent. -/
theorem goIndex_none (b : Nat) (s : GoStr) (h : b ∉ s) : goIndex b s = none := by
  induction s with
  | nil => rfl
  | cons a t ih =>
    have hne : ¬ a = b := fun hab => h (by rw [← hab]; exact List.mem_cons_self a t)
    have ht : b ∉ t := fun hm => h (List.mem_cons_of_mem a hm)
    simp only [goIndex]
    rw [if_neg hne, ih ht]
    rfl

/-- `goIndex` finds the boundary of a clean prefix. -/
theorem goIndex_append (b : Nat) (s t : GoStr) (h : b ∉ s) :
    goIndex b (s ++ b :: t) = some s.length := by
  induction s with
  | nil => simp [goIndex]
  | cons a s' ih =>
    have hne : ¬ a = b := fun hab => h (by rw [← hab]; exact List.mem_cons_self a s')
    have hs : b ∉ s' := fun hm => h (List.mem_cons_of_mem a hm)
    simp only [List.cons_append, goIndex]
    rw [if_neg hne]
    simp only [List.append_eq]
    rw [ih hs]
    rfl

/-- Dropping a clean prefix and its terminator. -/
theorem drop_seg (s t : GoStr) : (s ++ 47 :: t).drop (s.length + 1) = t := by
  have : s ++ 47 :: t = (s ++ [47]) ++ t := by simp
  rw [this]
  have hl : s.length + 1 = (s ++ [47]).length := by simp
  rw [hl, List.drop_left]

/-- `splitUNC` on a full UNC path `//server/share/...`. -/
theorem splitUNC_full (s1 s2 t : GoStr) (h1 : 47 ∉ s1) (h2 : 47 ∉ s2) :
    Win.splitUNC (47 :: 47 :: (s1 ++ 47 :: (s2 ++ 47 :: t))) = (s1, s2, 47 :: t) := by
  unfold Win.splitUNC
  rw [if_neg (by simp [Win.isUNC])]
  simp only [List.drop_succ_cons, List.drop_zero]
  rw [goIndex_append 47 s1 (s2 ++ 47 :: t) h1]
  simp only [List.take_left, drop_seg]
  rw [goIndex_append 47 s2 t h2]
  simp only [List.take_left]
  rw [show (s2 ++ 47 :: t).drop s2.length = 47 :: t from List.drop_left s2 (47 :: t)]
  simp

/-- `splitUNC` on a UNC path that ends at the share `//server/share`. -/
theorem splitUNC_share (s1 s2 : GoStr) (h1 : 47 ∉ s1) (h2 : 47 ∉ s2) :
    Win.splitUNC (47 :: 47 :: (s1 ++ 47 :: s2)) = (s1, s2, [47]) := by
  unfold Win.splitUNC
  rw [if_neg (by simp [Win.isUNC])]
  simp only [List.drop_succ_cons, List.drop_zero]
  rw [goIndex_append 47 s1 s2 h1]
  simp only [List.take_left, drop_seg]
  rw [goIndex_none 47 s2 h2]

/-- `splitUNC` returns three empty strings on non-UNC input. -/
theorem splitUNC_none (p : GoStr) (h : Win.isUNC p = false) :
    Win.splitUNC p = ([], [], []) := by
  unfold Win.splitUNC
  rw [if_pos h]

/-- The two families share one `isUNC`/`splitUNC` algorithm. -/
theorem splitUNC_families (p : GoStr) :
    Unix.isUNC p = Win.isUNC p ∧ Unix.splitUNC p = Win.splitUNC p := ⟨rfl, rfl⟩

/-- C9: `isUNC` holds exactly on paths whose first two bytes are slashes
(including the bare `//`); `splitUNC` yields three empty strings on non-UNC
input, and on `//server/share...` returns the first two slash-delimited
segments with the rest defaulting to `/` at the share boundary; both families
run the same algorithm. -/
theorem c9_theorem :
    (∀ p : GoStr, Unix.isUNC p = true ↔
      2 ≤ p.length ∧ p.getD 0 0 = 47 ∧ p.getD 1 0 = 47) ∧
    (∀ p : GoStr, Unix.isUNC p = false → Unix.splitUNC p = ([], [], [])) ∧
    (∀ s1 s2 t : GoStr, 47 ∉ s1 → 47 ∉ s2 →
      Unix.splitUNC (47 :: 47 :: (s1 ++ 47 :: (s2 ++ 47 :: t))) = (s1, s2, 47 :: t)) ∧
    (∀ s1 s2 : GoStr, 47 ∉ s1 → 47 ∉ s2 →
      Unix.splitUNC (47 :: 47 :: (s1 ++ 47 :: s2)) = (s1, s2, [47])) ∧
    (∀ p : GoStr, Win.isUNC p = Unix.isUNC p ∧ Win.splitUNC p = Unix.splitUNC p) ∧
    Unix.isUNC (bytes "//") = true ∧
    Unix.splitUNC (bytes "//server/share/foo/bar") =
      (bytes "server", bytes "share", bytes "/foo/bar") ∧
    Unix.splitUNC (bytes "//server/share") = (bytes "server", bytes "share", bytes "/") := by
  refine ⟨?_, ?_, ?_, ?_, ?_, by decide, by decide, by decide⟩
  · intro p
    simp [Unix.isUNC]
    omega
  · intro p h
    rw [(splitUNC_families p).2]
    exact splitUNC_none p ((splitUNC_families p).1 ▸ h)
  · intro s1 s2 t h1 h2
    rw [(splitUNC_families _).2]
    exact splitUNC_full s1 s2 t h1 h2
  · intro s1 s2 h1 h2
    rw [(splitUNC_families _).2]
    exact splitUNC_share s1 s2 h1 h2
  · intro p
    exact ⟨rfl, rfl⟩

/-- C9 witness. -/
theorem c9_witness :
    (47 ∉ ([115] : GoStr) ∧ 47 ∉ ([104] : GoStr)) ∧
    Unix.splitUNC (47 :: 47 :: ([115] ++ 47 :: [104])) = ([115], [104], [47]) :=
  ⟨⟨by decide, by decide⟩, c9_theorem.2.2.2.1 [115] [104] (by decide) (by decide)⟩

/-- The drive-marked branch of `fromNative`, spelled out. -/
theorem fromNative_drive (n : GoStr) (hlen : 2 ≤ n.length) (h58 : n.getD 1 0 = 58)
    (hbs : ¬ (n.getD 0 0 = 92 ∧ n.getD 1 0 = 92)) :
    Win.fromNative n =
      47 :: (goLowerStr1 (n.getD 0 0) ++
        (if toSlash (n.drop 2) = [] ∨ (toSlash (n.drop 2)).headD 0 ≠ 47
         then 47 :: toSlash (n.drop 2) else toSlash (n.drop 2))) := by
  have hne : ¬ n = [] := by
    intro he
    rw [he] at hlen
    simp at hlen
  have hcond1 : ¬ (n.getD 0 0 = 92 ∧ n.getD 1 0 = 92 ∧ 2 ≤ n.length) := by
    intro hc
    rw [h58] at hc
    exact absurd hc.2.1 (by decide)
  unfold Win.fromNative
  rw [if_neg hne, if_neg hcond1, if_pos ⟨h58, hlen⟩]

/-- C10: on the drive-letter family any native path whose second byte is a
colon is treated as drive-marked regardless of its first byte: the result is
`/`, the lowercased first character, and the slash-converted remainder with a
leading slash ensured, and such input is never returned unchanged —
e.g. `fromNative("1:x") = "/1/x"` and `fromNative("C:") = "/c/"`. -/
theorem c10_theorem :
    (∀ n : GoStr, 2 ≤ n.length → n.getD 1 0 = 58 →
      ¬ (n.getD 0 0 = 92 ∧ n.getD 1 0 = 92) →
      Win.fromNative n =
        47 :: (goLowerStr1 (n.getD 0 0) ++
          (if toSlash (n.drop 2) = [] ∨ (toSlash (n.drop 2)).headD 0 ≠ 47
           then 47 :: toSlash (n.drop 2) else toSlash (n.drop 2))) ∧
      Win.fromNative n ≠ n) ∧
    Win.fromNative (bytes "1:x") = bytes "/1/x" ∧
    Win.fromNative (bytes "C:") = bytes "/c/" := by
  refine ⟨?_, by decide, by decide⟩
  intro n hlen h58 hbs
  have heqn := fromNative_drive n hlen h58 hbs
  refine ⟨heqn, ?_⟩
  intro heq
  rw [heqn] at heq
  have hb : n.getD 0 0 = 47 := by
    rw [← heq]
    rfl
  rw [hb] at heq
  have h47 : goLowerStr1 47 = [47] := by decide
  rw [h47] at heq
  have h2 : n.getD 1 0 = 47 := by
    rw [← heq]
    rfl
  rw [h58] at h2
  exact absurd h2 (by decide)

/-- C10 witness. -/
theorem c10_witness : Win.fromNative [49, 58, 120] ≠ [49, 58, 120] :=
  (c10_theorem.1 [49, 58, 120] (by decide) (by decide) (by decide)).2

/-- The code's reserved-name test agrees with the spec's wording. -/
theorem isReservedName_eq_spec (c : GoStr) : Win.isReservedName c = specReserved c := by
  unfold Win.isReservedName specReserved
  split
  · rename_i h
    rw [h]
    decide
  · rfl

/-- The character scan accepts exactly components with no invalid or control
byte. -/
theorem scanComp_isNone (c : GoStr) :
    (Win.scanComp c).isNone = !(c.any fun b => invalidChars.contains b || decide (b < 32)) := by
  induction c with
  | nil => rfl
  | cons b t ih =>
    simp only [Win.scanComp, List.any_cons]
    cases hcont : invalidChars.contains b
    · cases h32 : decide (b < 32)
      · rw [if_neg (by simp [hcont]), if_neg (of_decide_eq_false h32)]
        rw [ih]
        simp
      · rw [if_neg (by simp [hcont]), if_pos (of_decide_eq_true h32)]
        simp
    · simp

/-- The per-component check accepts exactly non-bad components. -/
theorem checkComp_isNone (c : GoStr) :
    (Win.checkComp c).isNone = !(specComponentBad c) := by
  by_cases hc : c = []
  · subst hc
    decide
  · unfold Win.checkComp specComponentBad
    rw [if_neg hc, isReservedName_eq_spec]
    have hemp : c.isEmpty = false := by
      cases c
      · exact absurd rfl hc
      · rfl
    cases hr : specReserved c
    · rw [if_neg (by simp [hr])]
      have hscanN := scanComp_isNone c
      cases hscan : Win.scanComp c with
      | some e =>
        rw [hscan] at hscanN
        have hany : (c.any fun b => invalidChars.contains b || decide (b < 32)) = true := by
          simpa using hscanN.symm
        rw [hany]
        simp
      | none =>
        rw [hscan] at hscanN
        have hany : (c.any fun b => invalidChars.contains b || decide (b < 32)) = false := by
          simpa using hscanN.symm
        rw [hany, hemp]
        by_cases ht : c.getLast? = some 32 ∨ c.getLast? = some 46
        · rw [if_pos ht]
          have hb : (c.getLast? == some 32 || c.getLast? == some 46) = true := by
            rcases ht with h | h
            · rw [h]
              simp
            · rw [h]
              simp
          rw [hb]
          simp
        · rw [if_neg ht]
          have hb : (c.getLast? == some 32 || c.getLast? == some 46) = false := by
            rw [not_or] at ht
            simp only [Bool.or_eq_false_iff, beq_eq_false_iff_ne, ne_eq]
            exact ⟨ht.1, ht.2⟩
          rw [hb]
          simp
    · simp

/-- The component loop accepts exactly lists with no bad component. -/
theorem checkComps_isNone (cs : List GoStr) :
    (Win.checkComps cs).isNone = !(cs.any specComponentBad) := by
  induction cs with
  | nil => rfl
  | cons c cs ih =>
    simp only [Win.checkComps, List.any_cons]
    have hcN := checkComp_isNone c
    cases hc : Win.checkComp c with
    | some e =>
      rw [hc] at hcN
      have hb : specComponentBad c = true := by
        simpa using hcN.symm
      rw [hb]
      simp
    | none =>
      rw [hc] at hcN
      have hb : specComponentBad c = false := by
        simpa using hcN.symm
      rw [hb, ih]
      simp

/-- `validatePath` (windows) accepts exactly the paths the spec's reject
predicate clears. -/
theorem validatePath_none_iff (p : GoStr) :
    Win.validatePath p = none ↔ specWinRejects p = false := by
  have main : (Win.validatePath p).isNone = !(specWinRejects p) := by
    by_cases hp : p = []
    · subst hp
      decide
    · unfold Win.validatePath specWinRejects
      rw [if_neg hp]
      by_cases h0 : (0 : Nat) ∈ p
      · rw [if_pos h0, decide_eq_true h0]
        simp
      · rw [if_neg h0, decide_eq_false h0]
        rw [checkComps_isNone]
        simp
  constructor
  · intro h
    rw [h] at main
    simpa using main.symm
  · intro h
    rw [h] at main
    simp only [Bool.not_false] at main
    cases hV : Win.validatePath p with
    | none => rfl
    | some e =>
      rw [hV] at main
      simp at main

/-- C7: the non-drive-letter family accepts every path without a NUL byte;
the drive-letter family rejects exactly paths with a NUL byte, components
containing one of `< > : " | ? *` or a control byte below 32, reserved device
names (case-insensitive after stripping from the first `.`, over exactly
CON, PRN, AUX, NUL, COM1–COM9, LPT1–LPT9 — so COM10 is not reserved while
con.txt is), and components with a trailing space or period. -/
theorem c7_theorem :
    (∀ p : GoStr, Unix.validatePath p = none ↔ ¬ 0 ∈ p) ∧
    (∀ p : GoStr, Win.validatePath p = none ↔ specWinRejects p = false) ∧
    Win.isReservedName (bytes "COM10") = false ∧
    Win.isReservedName (bytes "con.txt") = true ∧
    Win.isReservedName (bytes "COM9") = true ∧
    (∀ n : GoStr, Unix.isReservedName n = false) := by
  refine ⟨?_, validatePath_none_iff, by decide, by decide, by decide, fun n => rfl⟩
  intro p
  unfold Unix.validatePath
  by_cases h0 : (0 : Nat) ∈ p
  · rw [if_pos h0]
    simp [h0]
  · rw [if_neg h0]
    simp [h0]

/-- C7 witness. -/
theorem c7_witness :
    Unix.validatePath [97, 0] ≠ none ∧ Win.validatePath (bytes "a/con.txt") ≠ none :=
  ⟨fun h => (c7_theorem.1 [97, 0]).mp h (by decide),
   fun h => by
     have := (c7_theorem.2.1 (bytes "a/con.txt")).mp h
     exact absurd this (by decide)⟩

/-! ## Round-trip lemmas -/

/-- An in-range `getD` is a member. -/
theorem getD_mem (l : GoStr) (i : Nat) (h : i < l.length) : l.getD i 0 ∈ l := by
  rw [List.getD_eq_getElem?_getD, List.getElem?_eq_getElem h]
  exact List.getElem_mem h

/-- Slash conversion round-trips on backslash-free strings. -/
theorem toSlash_fromSlash (p : GoStr) (h : 92 ∉ p) : toSlash (fromSlash p) = p := by
  induction p with
  | nil => rfl
  | cons b t ih =>
    have hb : ¬ b = 92 := fun he => h (by rw [he]; exact List.mem_cons_self 92 t)
    have ht : 92 ∉ t := fun hm => h (List.mem_cons_of_mem b hm)
    simp only [fromSlash, toSlash, List.map_cons] at ih ⊢
    rw [ih ht]
    by_cases h47 : b = 47
    · subst h47
      simp
    · rw [if_neg h47, if_neg hb]

/-- `getD 0` through `fromSlash`. -/
theorem fromSlash_getD (p : GoStr) (i : Nat) :
    (fromSlash p).getD i 0 = if p.getD i 0 = 47 then 92 else p.getD i 0 := by
  induction p generalizing i with
  | nil => simp [fromSlash]
  | cons b t ih =>
    cases i with
    | zero => simp [fromSlash]
    | succ j => simpa [fromSlash] using ih j

/-- `upperCP` on a lowercase ASCII letter. -/
theorem upperCP_of_lower (c : Nat) (h1 : 97 ≤ c) (h2 : c ≤ 122) : upperCP c = c - 32 := by
  unfold upperCP
  rw [if_pos ⟨h1, h2⟩]

/-- `goToUpperStr` on a single ASCII byte. -/
theorem goToUpperStr_single (c : Nat) (h : c < 128) :
    goToUpperStr [c] = utf8Encode (upperCP c) := by
  simp [goToUpperStr, mapCaseUtf8, utf8Decode2, h]

/-- `goToUpperStr` uppercases a single lowercase ASCII letter. -/
theorem goToUpperStr_single_lower (c : Nat) (h1 : 97 ≤ c) (h2 : c ≤ 122) :
    goToUpperStr [c] = [c - 32] := by
  rw [goToUpperStr_single c (by omega), upperCP_of_lower c h1 h2,
      utf8Encode_ascii (c - 32) (by omega)]

/-- `splitComp` always produces at least one component. -/
theorem splitComp_ne_nil (p : GoStr) : splitComp p ≠ [] := by
  unfold splitComp
  split
  · simp
  · simp
  · split <;> simp

/-- `splitComp` on a non-slash head extends the first component. -/
theorem splitComp_cons_ne_cons (x : Nat) (rest c : GoStr) (cs : List GoStr)
    (hx : ¬ x = 47) (h : splitComp rest = c :: cs) :
    splitComp (x :: rest) = (x :: c) :: cs := by
  rw [splitComp.eq_def]
  split
  · rename_i heq
    exact absurd heq (by simp)
  · rename_i heq
    injection heq with h1 h2
    exact absurd h1 hx
  · rename_i hbne heq
    injection heq with h1 h2
    subst h1
    subst h2
    rw [h]

/-- Every non-slash byte of a path lands in one of its components. -/
theorem mem_splitComp_of_mem (p : GoStr) (b : Nat) (hb : ¬ b = 47) (h : b ∈ p) :
    ∃ c ∈ splitComp p, b ∈ c := by
  induction p with
  | nil => exact absurd h (by simp)
  | cons x xs ih =>
    by_cases hx : x = 47
    · subst hx
      have hbx : b ∈ xs := by
        rcases List.mem_cons.mp h with h1 | h1
        · exact absurd h1 hb
        · exact h1
      obtain ⟨c, hc, hbc⟩ := ih hbx
      exact ⟨c, List.mem_cons_of_mem _ hc, hbc⟩
    · obtain ⟨c, cs, hcs⟩ : ∃ c cs, splitComp xs = c :: cs := by
        cases hsp : splitComp xs with
        | nil => exact absurd hsp (splitComp_ne_nil xs)
        | cons c cs => exact ⟨c, cs, rfl⟩
      rw [splitComp_cons_ne_cons x xs c cs hx hcs]
      rcases List.mem_cons.mp h with h1 | h1
      · exact ⟨x :: c, List.mem_cons_self _ _, by rw [h1]; exact List.mem_cons_self _ _⟩
      · obtain ⟨c2, hc2, hbc2⟩ := ih h1
        rw [hcs] at hc2
        rcases List.mem_cons.mp hc2 with h2 | h2
        · exact ⟨x :: c, List.mem_cons_self _ _, List.mem_cons_of_mem x (h2 ▸ hbc2)⟩
        · exact ⟨c2, List.mem_cons_of_mem _ h2, hbc2⟩

/-- A colon never occurs in a path that `validatePath` accepts. -/
theorem no_colon_of_valid (p : GoStr) (hval : Win.validatePath p = none) : 58 ∉ p := by
  intro hmem
  have hrej : specWinRejects p = false := (validatePath_none_iff p).mp hval
  obtain ⟨c, hc, hbc⟩ := mem_splitComp_of_mem p 58 (by decide) hmem
  have hbad : specComponentBad c = true := by
    unfold specComponentBad
    have hany : c.any (fun b => invalidChars.contains b || decide (b < 32)) = true :=
      List.any_eq_true.mpr ⟨58, hbc, by decide⟩
    rw [hany]
    simp
  unfold specWinRejects at hrej
  rw [Bool.or_eq_false_iff] at hrej
  have hall := List.any_eq_true.mpr ⟨c, hc, hbad⟩
  have h2 := hrej.2
  rw [hall] at h2
  exact absurd h2 (by decide)

/-- The windows round trip: every well-formed canonical path except a bare
drive comes back unchanged from its native form. -/
theorem roundtrip_win (p : GoStr) (hw : wellFormedCanonical p = true)
    (hb : bareDrive p = false) : Win.fromNative (Win.toNative p) = p := by
  unfold wellFormedCanonical at hw
  rw [Bool.and_eq_true, Bool.and_eq_true, Bool.and_eq_true] at hw
  obtain ⟨⟨⟨hutf, hn92⟩, hval⟩, hdrv⟩ := hw
  have h92 : 92 ∉ p := by simpa using hn92
  have hvn : Win.validatePath p = none := of_decide_eq_true hval
  have h58 : 58 ∉ p := no_colon_of_valid p hvn
  have hd : driveShape p = true → 97 ≤ p.getD 1 0 ∧ p.getD 1 0 ≤ 122 := by
    intro h
    rw [h] at hdrv
    simpa using hdrv
  by_cases hunc : Win.isUNC p = true
  · obtain ⟨t, rfl⟩ : ∃ t, p = 47 :: 47 :: t := by
      rcases p with _ | ⟨a, _ | ⟨b, t⟩⟩
      · simp [Win.isUNC] at hunc
      · simp [Win.isUNC] at hunc
      · simp [Win.isUNC] at hunc
        obtain ⟨h1, h2⟩ := hunc
        subst h1
        subst h2
        exact ⟨t, rfl⟩
    have h92t : 92 ∉ t := fun hm => h92 (by simp [hm])
    have htn : Win.toNative (47 :: 47 :: t) = 92 :: 92 :: fromSlash t := by
      unfold Win.toNative
      rw [if_neg (by simp), if_pos hunc]
      rfl
    rw [htn]
    unfold Win.fromNative
    rw [if_neg (by simp), if_pos (by simp)]
    show 47 :: 47 :: toSlash (fromSlash t) = 47 :: 47 :: t
    rw [toSlash_fromSlash t h92t]
  · by_cases hds : driveShape p = true
    · obtain ⟨c, rest, rfl, hshape⟩ :
          ∃ c rest, p = 47 :: c :: rest ∧ (rest = [] ∨ rest.headD 0 = 47) := by
        rcases p with _ | ⟨a, _ | ⟨b, t⟩⟩
        · exact absurd hds (by decide)
        · have hfalse : driveShape [a] = false := by
            rw [driveShape.eq_def]
            split
            · rename_i heq
              exact absurd heq (by simp)
            · rfl
          rw [hfalse] at hds
          exact absurd hds (by decide)
        · by_cases ha : a = 47
          · subst ha
            refine ⟨b, t, rfl, ?_⟩
            have hds2 : (goIsLetterByte b && (t.isEmpty || t.headD 0 == 47)) = true := hds
            rw [Bool.and_eq_true] at hds2
            rcases (Bool.or_eq_true _ _).mp hds2.2 with h | h
            · left
              exact List.isEmpty_iff.mp h
            · right
              simpa using h
          · exfalso
            have hfalse : driveShape (a :: b :: t) = false := by
              rw [driveShape.eq_def]
              split
              · rename_i heq
                injection heq with e1 e2
                exact absurd e1 ha
              · rfl
            rw [hfalse] at hds
            exact absurd hds (by decide)
      obtain ⟨hc1, hc2⟩ := hd hds
      simp only [List.getD_cons_succ, List.getD_cons_zero] at hc1 hc2
      have hlet := letter_of_lower c hc1 hc2
      rcases hshape with rfl | hhead
      · exfalso
        have hbv : (goIsLetterByte c && decide (97 ≤ c) && decide (c ≤ 122)) = false := hb
        rw [hlet, decide_eq_true hc1, decide_eq_true hc2] at hbv
        exact absurd hbv (by decide)
      · obtain ⟨t, rfl⟩ : ∃ t, rest = 47 :: t := by
          rcases rest with _ | ⟨r0, t⟩
          · exact absurd hhead (by simp [List.headD])
          · have : r0 = 47 := by simpa [List.headD] using hhead
            subst this
            exact ⟨t, rfl⟩
        have h92t : 92 ∉ t := fun hm => h92 (by simp [hm])
        have htn : Win.toNative (47 :: c :: 47 :: t) =
            (c - 32) :: 58 :: 92 :: fromSlash t := by
          unfold Win.toNative
          rw [if_neg (by simp), if_neg hunc]
          simp only [splitDrive_mid c t hlet, goLowerStr1_of_lower c hc1 hc2]
          rw [if_pos (by simp)]
          rw [goToUpperStr_single_lower c hc1 hc2]
          simp [fromSlash]
        rw [htn]
        unfold Win.fromNative
        rw [if_neg (by simp)]
        rw [if_neg (by
          intro hcontra
          simp only [List.getD_cons_zero] at hcontra
          omega)]
        rw [if_pos (by constructor <;> simp)]
        simp only [List.getD_cons_zero, List.drop_succ_cons, List.drop_zero]
        rw [goLowerStr1_of_upper (c - 32) (by omega) (by omega)]
        have hc32 : c - 32 + 32 = c := by omega
        rw [hc32]
        have hrest : toSlash (92 :: fromSlash t) = 47 :: t := by
          show (if (92 : Nat) = 92 then 47 else 92) :: toSlash (fromSlash t) = 47 :: t
          rw [if_pos rfl, toSlash_fromSlash t h92t]
        rw [hrest]
        rw [if_neg (by simp [List.headD])]
        rfl
    · have hds' : driveShape p = false := by simpa using hds
      have hsd := splitDrive_none p hds'
      by_cases hp : p = []
      · subst hp
        rfl
      · have hlen : (fromSlash p).length = p.length := by simp [fromSlash]
        have htn : Win.toNative p = fromSlash p := by
          unfold Win.toNative
          rw [if_neg hp, if_neg hunc]
          simp only [hsd]
          simp
        rw [htn]
        unfold Win.fromNative
        rw [if_neg (by
          intro he
          apply hp
          have : p.length = 0 := by
            rw [← hlen, he]
            rfl
          exact List.eq_nil_of_length_eq_zero this)]
        rw [if_neg (by
          intro hcontra
          obtain ⟨ha, hbb, hlen2⟩ := hcontra
          rw [hlen] at hlen2
          rw [fromSlash_getD] at ha hbb
          have hg0 : p.getD 0 0 = 47 := by
            by_cases h : p.getD 0 0 = 47
            · exact h
            · rw [if_neg h] at ha
              have hmem : p.getD 0 0 ∈ p := getD_mem p 0 (by omega)
              rw [ha] at hmem
              exact absurd hmem h92
          have hg1 : p.getD 1 0 = 47 := by
            by_cases h : p.getD 1 0 = 47
            · exact h
            · rw [if_neg h] at hbb
              have hmem : p.getD 1 0 ∈ p := getD_mem p 1 (by omega)
              rw [hbb] at hmem
              exact absurd hmem h92
          apply hunc
          unfold Win.isUNC
          rw [hg0, hg1, decide_eq_true hlen2]
          decide)]
        rw [if_neg (by
          intro hcontra
          obtain ⟨hbb, hlen2⟩ := hcontra
          rw [hlen] at hlen2
          rw [fromSlash_getD] at hbb
          by_cases h : p.getD 1 0 = 47
          · rw [if_pos h] at hbb
            exact absurd hbb (by decide)
          · rw [if_neg h] at hbb
            have hmem : p.getD 1 0 ∈ p := getD_mem p 1 (by omega)
            rw [hbb] at hmem
            exact h58 hmem)]
        exact toSlash_fromSlash p h92

/-- A bare drive `/x` does not round-trip: it comes back as `/x/`. -/
theorem roundtrip_bare (c : Nat) (h1 : 97 ≤ c) (h2 : c ≤ 122) :
    Win.fromNative (Win.toNative [47, c]) = [47, c, 47] := by
  have hlet := letter_of_lower c h1 h2
  have hc : ¬ c = 47 := by omega
  have htn : Win.toNative [47, c] = [c - 32, 58, 92] := by
    unfold Win.toNative
    rw [if_neg (by simp), if_neg (by simp [Win.isUNC, hc])]
    simp only [splitDrive_bare c hlet, goLowerStr1_of_lower c h1 h2]
    rw [if_pos (by simp)]
    rw [goToUpperStr_single_lower c h1 h2]
    rfl
  rw [htn]
  unfold Win.fromNative
  rw [if_neg (by simp)]
  rw [if_neg (by
    intro hcontra
    simp only [List.getD_cons_zero] at hcontra
    omega)]
  rw [if_pos (by constructor <;> simp)]
  simp only [List.getD_cons_zero, List.drop_succ_cons, List.drop_zero]
  rw [goLowerStr1_of_upper (c - 32) (by omega) (by omega)]
  have hc32 : c - 32 + 32 = c := by omega
  rw [hc32]
  rw [show toSlash ([92] : GoStr) = [47] from rfl]
  rw [if_neg (by simp [List.headD])]
  rfl

/-- C1 (amended): on the drive-letter family every canonical path accepted by
the Path Grammar as well-formed round-trips exactly through
`fromNative ∘ toNative` — except the bare drive-rooted paths `/x`, which come
back as `/x/` with a trailing slash (the one deviation the counterexample
forces); UNC paths round-trip; and on the non-drive-letter family both
translations are literal identities, so the round trip is the identity on
every string. -/
theorem c1_theorem :
    (∀ p : GoStr, wellFormedCanonical p = true → bareDrive p = false →
      Win.fromNative (Win.toNative p) = p) ∧
    (∀ c : Nat, 97 ≤ c → c ≤ 122 →
      Win.fromNative (Win.toNative [47, c]) = [47, c, 47]) ∧
    (∀ x : GoStr, Unix.toNative x = x ∧ Unix.fromNative x = x) :=
  ⟨roundtrip_win, roundtrip_bare, fun x => ⟨rfl, rfl⟩⟩

/-- C1 counterexample: the claim includes the bare drive-rooted path `/c`,
but the round trip returns `/c/`. -/
theorem c1_counterexample :
    wellFormedCanonical (bytes "/c") = true ∧
    Win.fromNative (Win.toNative (bytes "/c")) = bytes "/c/" ∧
    bytes "/c/" ≠ bytes "/c" := by decide

/-- C1 witness. -/
theorem c1_witness :
    (wellFormedCanonical (bytes "/c/foo") = true ∧ bareDrive (bytes "/c/foo") = false) ∧
    Win.fromNative (Win.toNative (bytes "/c/foo")) = bytes "/c/foo" :=
  ⟨⟨by decide, by decide⟩, c1_theorem.1 (bytes "/c/foo") (by decide) (by decide)⟩

/-- C3: the resolver maps empty input to the translated working directory;
joins non-absolute input onto the working directory with the canonical
(forward-slash, `path.Join`) join before translating; splices the working
directory's drive into absolute driveless input; and in particular resolving
`bar` against `/c/foo` gives `C:\foo\bar` on the drive-letter family and
`/c/foo/bar` on the other family. -/
theorem c3_theorem :
    (∀ cwd : GoStr, Win.toNativePath cwd [] = Win.toNative cwd ∧
      Unix.toNativePath cwd [] = Unix.toNative cwd) ∧
    (∀ cwd name : GoStr, name ≠ [] → goPathIsAbs name = false →
      Win.toNativePath cwd name = Win.toNative (goPathJoin cwd name) ∧
      Unix.toNativePath cwd name = Unix.toNative (goPathJoin cwd name)) ∧
    (∀ cwd name : GoStr, name ≠ [] → goPathIsAbs name = true →
      Win.GetDrive name = [] → Win.GetDrive cwd ≠ [] →
      Win.toNativePath cwd name = Win.toNative (Win.setDrive name (Win.GetDrive cwd))) ∧
    Win.toNativePath (bytes "/c/foo") (bytes "bar") = bytes "C:\\foo\\bar" ∧
    Unix.toNativePath (bytes "/c/foo") (bytes "bar") = bytes "/c/foo/bar" := by
  refine ⟨fun cwd => ⟨rfl, rfl⟩, ?_, ?_, ?_, ?_⟩
  · intro cwd name hne habs
    constructor
    · unfold Win.toNativePath
      rw [if_neg hne, if_neg (by simp [Win.isNativePath]), if_pos habs]
    · unfold Unix.toNativePath
      rw [if_neg hne, if_neg (by simp [Unix.isNativePath]), if_pos habs]
  · intro cwd name hne habs hd1 hd2
    unfold Win.toNativePath
    rw [if_neg hne, if_neg (by simp [Win.isNativePath]), if_neg (by simp [habs]),
        if_pos ⟨hd1, hd2⟩]
  · simp [Win.toNativePath, Win.isNativePath, goPathIsAbs, goPathJoin, goPathClean,
          cleanCore, btIdx, bytes]
    decide
  · simp [Unix.toNativePath, Unix.isNativePath, goPathIsAbs, goPathJoin, goPathClean,
          cleanCore, btIdx, bytes]
    decide

/-- C3 witness. -/
theorem c3_witness :
    (bytes "bar" ≠ [] ∧ goPathIsAbs (bytes "bar") = false) ∧
    Win.toNativePath (bytes "/c/foo") (bytes "bar") =
      Win.toNative (goPathJoin (bytes "/c/foo") (bytes "bar")) :=
  ⟨⟨by decide, by decide⟩,
   (c3_theorem.2.1 (bytes "/c/foo") (bytes "bar") (by decide) (by decide)).1⟩

/-- C4: `Chdir` is the only `FileSystem` operation whose state effect touches
the stored working directory; when the resolved target fails the directory
check it returns a `chdir` `PathError` carrying the offending (original) path
and the wrapped "not a directory" error, leaving the working directory
unchanged; on success it stores the canonical (`fromNative`) form of the
resolved native path. -/
theorem c4_theorem :
    (∀ (isDir : GoStr → Bool) (fs : FS) (name : GoStr),
      (isDir (Win.toNativePath fs.cwd name) = false →
        Win.Chdir isDir fs name =
          (some ⟨bytes "chdir", name, bytes "not a directory"⟩, fs)) ∧
      (isDir (Win.toNativePath fs.cwd name) = true →
        Win.Chdir isDir fs name =
          (none, ⟨Win.fromNative (Win.toNativePath fs.cwd name)⟩))) ∧
    (∀ (isDir : GoStr → Bool) (fs : FS) (name : GoStr),
      (isDir (Unix.toNativePath fs.cwd name) = false →
        Unix.Chdir isDir fs name =
          (some ⟨bytes "chdir", name, bytes "not a directory"⟩, fs)) ∧
      (isDir (Unix.toNativePath fs.cwd name) = true →
        Unix.Chdir isDir fs name =
          (none, ⟨Unix.fromNative (Unix.toNativePath fs.cwd name)⟩))) ∧
    (∀ (isDir : GoStr → Bool) (fs : FS) (op : Op),
      (∀ name, op ≠ Op.opChdir name) →
      Win.applyOp isDir fs op = fs ∧ Unix.applyOp isDir fs op = fs) := by
  refine ⟨?_, ?_, ?_⟩
  · intro isDir fs name
    constructor
    · intro h
      unfold Win.Chdir
      rw [if_pos h]
    · intro h
      unfold Win.Chdir
      rw [if_neg (by simp [h])]
  · intro isDir fs name
    constructor
    · intro h
      unfold Unix.Chdir
      rw [if_pos h]
    · intro h
      unfold Unix.Chdir
      rw [if_neg (by simp [h])]
  · intro isDir fs op h
    cases op with
    | opChdir name => exact absurd rfl (h name)
    | opOpen name => exact ⟨rfl, rfl⟩
    | opCreate name => exact ⟨rfl, rfl⟩
    | opTruncate name size => exact ⟨rfl, rfl⟩
    | opMkdir name perm => exact ⟨rfl, rfl⟩
    | opMkdirAll name perm => exact ⟨rfl, rfl⟩
    | opOpenFile name flag perm => exact ⟨rfl, rfl⟩
    | opRemove name => exact ⟨rfl, rfl⟩
    | opRename o n => exact ⟨rfl, rfl⟩
    | opRemoveAll name => exact ⟨rfl, rfl⟩
    | opStat name => exact ⟨rfl, rfl⟩
    | opChmod name mode => exact ⟨rfl, rfl⟩
    | opChtimes name => exact ⟨rfl, rfl⟩
    | opChown name u g => exact ⟨rfl, rfl⟩
    | opLstat name => exact ⟨rfl, rfl⟩
    | opLchown name u g => exact ⟨rfl, rfl⟩
    | opReadlink name => exact ⟨rfl, rfl⟩
    | opSymlink o n => exact ⟨rfl, rfl⟩
    | opReadDir name => exact ⟨rfl, rfl⟩
    | opReadFile name => exact ⟨rfl, rfl⟩
    | opGetwd => exact ⟨rfl, rfl⟩
    | opTempDir => exact ⟨rfl, rfl⟩

/-- C4 witness. -/
theorem c4_witness :
    ((fun _ => false : GoStr → Bool) (Win.toNativePath (bytes "/c") (bytes "x")) = false) ∧
    Win.Chdir (fun _ => false) ⟨bytes "/c"⟩ (bytes "x") =
      (some ⟨bytes "chdir", bytes "x", bytes "not a directory"⟩, ⟨bytes "/c"⟩) :=
  ⟨rfl, (c4_theorem.1 (fun _ => false) ⟨bytes "/c"⟩ (bytes "x")).1 rfl⟩

namespace Linux

/-- Byte-lexicographic `<` is irreflexive. -/
theorem lexLt_irrefl (s : GoStr) : lexLt s s = false := by
  induction s with
  | nil => rfl
  | cons b t ih =>
    unfold lexLt
    rw [if_neg (by omega), if_pos rfl]
    exact ih

/-- Byte-lexicographic `<` is transitive. -/
theorem lexLt_trans : ∀ a b c : GoStr,
    lexLt a b = true → lexLt b c = true → lexLt a c = true
  | [], [], _ :: _, _, _ => rfl
  | [], _ :: _, _ :: _, _, _ => rfl
  | x :: xs, y :: ys, z :: zs, h1, h2 => by
    unfold lexLt at h1 h2 ⊢
    by_cases hxy : x < y
    · by_cases hyz : y < z
      · rw [if_pos (by omega)]
      · rw [if_neg hyz] at h2
        by_cases hyz2 : y = z
        · subst hyz2
          rw [if_pos hxy]
        · rw [if_neg hyz2] at h2
          exact absurd h2 (by decide)
    · rw [if_neg hxy] at h1
      by_cases hxy2 : x = y
      · subst hxy2
        rw [if_pos rfl] at h1
        by_cases hyz : x < z
        · rw [if_pos hyz]
        · rw [if_neg hyz] at h2 ⊢
          by_cases hyz2 : x = z
          · subst hyz2
            rw [if_pos rfl] at h2 ⊢
            exact lexLt_trans xs ys zs h1 h2
          · rw [if_neg hyz2] at h2
            exact absurd h2 (by decide)
      · rw [if_neg hxy2] at h1
        exact absurd h1 (by decide)

/-- Byte-lexicographic `<` is trichotomous. -/
theorem lexLt_trichot : ∀ a b : GoStr,
    lexLt a b = true ∨ a = b ∨ lexLt b a = true
  | [], [] => Or.inr (Or.inl rfl)
  | [], _ :: _ => Or.inl rfl
  | _ :: _, [] => Or.inr (Or.inr rfl)
  | x :: xs, y :: ys => by
    unfold lexLt
    by_cases hxy : x < y
    · left
      rw [if_pos hxy]
    · by_cases hyx : y < x
      · right; right
        rw [if_pos hyx]
      · have hxy2 : x = y := by omega
        subst hxy2
        rcases lexLt_trichot xs ys with h | h | h
        · left
          rw [if_neg hxy, if_pos rfl]
          exact h
        · right; left
          rw [h]
        · right; right
          rw [if_neg hxy, if_pos rfl]
          exact h

/-- Asymmetry of `lexLt`. -/
theorem lexLt_asymm (a b : GoStr) (h : lexLt a b = true) : lexLt b a = false := by
  cases hba : lexLt b a
  · rfl
  · have := lexLt_trans a b a h hba
    rw [lexLt_irrefl a] at this
    exact absurd this (by decide)

/-- Transitivity of the complement of `lexLt`. -/
theorem lexNlt_trans (a b c : GoStr) (h1 : lexLt b a = false) (h2 : lexLt c b = false) :
    lexLt c a = false := by
  cases hca : lexLt c a
  · rfl
  · exfalso
    rcases lexLt_trichot b c with h | h | h
    · have := lexLt_trans b c a h hca
      rw [h1] at this
      exact absurd this (by decide)
    · subst h
      rw [hca] at h1
      exact absurd h1 (by decide)
    · rw [h] at h2
      exact absurd h2 (by decide)

/-- `entLt` inherits asymmetry. -/
theorem entLt_asymm (a b : DirEntryE) (h : entLt a b = true) : entLt b a = false :=
  lexLt_asymm a.name b.name h

/-- `entLt` inherits complement-transitivity. -/
theorem entNlt_trans (a b c : DirEntryE) (h1 : entLt b a = false)
    (h2 : entLt c b = false) : entLt c a = false :=
  lexNlt_trans a.name b.name c.name h1 h2

/-- `swapL` preserves length. -/
theorem swapL_length (l : List α) (i j : Nat) : (swapL l i j).length = l.length := by
  unfold swapL
  cases hi : l[i]? <;> cases hj : l[j]? <;> simp

/-- Moving the `m`-th element to the front while writing `a` at `m` is a
permutation with `a` consed on. -/
theorem get_cons_set_perm (a : α) :
    ∀ (tl : List α) (m : Nat) (hm : m < tl.length),
    (tl[m] :: tl.set m a).Perm (a :: tl)
  | x :: tl2, 0, _ => by
    simp only [List.getElem_cons_zero, List.set_cons_zero]
    exact List.Perm.swap a x tl2
  | x :: tl2, m + 1, hm => by
    have hm2 : m < tl2.length := by simpa using hm
    have ih := get_cons_set_perm a tl2 m hm2
    simp only [List.getElem_cons_succ, List.set_cons_succ]
    exact (List.Perm.swap _ _ _).trans ((ih.cons x).trans (List.Perm.swap a x tl2))

/-- Writing each of two positions' values at the other is a permutation. -/
theorem set_set_perm : ∀ (l : List α) (i j : Nat) (hi : i < l.length) (hj : j < l.length),
    ((l.set i (l.get ⟨j, hj⟩)).set j (l.get ⟨i, hi⟩)).Perm l
  | a :: t, 0, 0, _, _ => by simp
  | a :: t, 0, m + 1, hi, hj => by
    have hm : m < t.length := by simpa using hj
    simpa using get_cons_set_perm a t m hm
  | a :: t, n + 1, 0, hi, hj => by
    have hn : n < t.length := by simpa using hi
    simpa using get_cons_set_perm a t n hn
  | a :: t, n + 1, m + 1, hi, hj => by
    have hn : n < t.length := by simpa using hi
    have hm : m < t.length := by simpa using hj
    simpa using (set_set_perm t n m hn hm).cons a

/-- `swapL` is a permutation. -/
theorem swapL_perm (l : List α) (i j : Nat) : (swapL l i j).Perm l := by
  unfold swapL
  cases hi : l[i]? with
  | none => exact List.Perm.refl l
  | some a =>
    cases hj : l[j]? with
    | none => exact List.Perm.refl l
    | some b =>
      obtain ⟨hi', hia⟩ := List.getElem?_eq_some.mp hi
      obtain ⟨hj', hjb⟩ := List.getElem?_eq_some.mp hj
      have := set_set_perm l i j hi' hj'
      simp only [List.get_eq_getElem] at this
      rw [hia, hjb] at this
      exact this

/-- Reading `swapL` at any index. -/
theorem swapL_getElem? (l : List α) (i j k : Nat) (hi : i < l.length)
    (hj : j < l.length) :
    (swapL l i j)[k]? = if k = j then l[i]? else if k = i then l[j]? else l[k]? := by
  unfold swapL
  rw [List.getElem?_eq_getElem hi, List.getElem?_eq_getElem hj]
  rw [List.getElem?_set, List.getElem?_set, List.length_set]
  by_cases hkj : k = j
  · rw [if_pos hkj.symm, if_pos hkj, if_pos hj]
  · rw [if_neg (fun h => hkj h.symm), if_neg hkj]
    by_cases hki : k = i
    · rw [if_pos hki.symm, if_pos hki, if_pos hi]
    · rw [if_neg (fun h => hki h.symm), if_neg hki]

/-- Reading `swapL` at any index, with a default. -/
theorem swapL_getD (l : List α) (i j k : Nat) (d : α) (hi : i < l.length)
    (hj : j < l.length) :
    (swapL l i j).getD k d =
      if k = j then l.getD i d else if k = i then l.getD j d else l.getD k d := by
  rw [List.getD_eq_getElem?_getD, List.getD_eq_getElem?_getD,
    List.getD_eq_getElem?_getD, List.getD_eq_getElem?_getD,
    swapL_getElem? l i j k hi hj]
  by_cases hkj : k = j
  · rw [if_pos hkj, if_pos hkj]
  · rw [if_neg hkj, if_neg hkj]
    by_cases hki : k = i
    · rw [if_pos hki, if_pos hki]
    · rw [if_neg hki, if_neg hki]

end Linux

namespace Linux

/-- Unfolding the inner insertion loop one step when both reads succeed. -/
theorem insInner_succ (lt : α → α → Bool) (l : List α) (j : Nat) (ej ejm : α)
    (h1 : l[j + 1]? = some ej) (h2 : l[j]? = some ejm) :
    insInner lt l (j + 1) =
      if lt ej ejm = true then insInner lt (swapL l (j + 1) j) j else l := by
  conv_lhs => unfold insInner
  rw [h1, h2]

/-- The inner insertion loop stops when the upper read fails. -/
theorem insInner_none1 (lt : α → α → Bool) (l : List α) (j : Nat)
    (h : l[j + 1]? = none) : insInner lt l (j + 1) = l := by
  conv_lhs => unfold insInner
  rw [h]

/-- The inner insertion loop stops when the lower read fails. -/
theorem insInner_none2 (lt : α → α → Bool) (l : List α) (j : Nat)
    (h : l[j]? = none) : insInner lt l (j + 1) = l := by
  conv_lhs => unfold insInner
  rw [h]
  cases l[j + 1]? <;> rfl

/-- The inner insertion loop preserves length. -/
theorem insInner_length (lt : α → α → Bool) :
    ∀ (j : Nat) (l : List α), (insInner lt l j).length = l.length
  | 0, _ => rfl
  | j + 1, l => by
    cases h1 : l[j + 1]? with
    | none => rw [insInner_none1 lt l j h1]
    | some ej =>
      cases h2 : l[j]? with
      | none => rw [insInner_none2 lt l j h2]
      | some ejm =>
        rw [insInner_succ lt l j ej ejm h1 h2]
        by_cases hlt : lt ej ejm = true
        · rw [if_pos hlt, insInner_length lt j (swapL l (j + 1) j), swapL_length]
        · rw [if_neg hlt]

/-- The inner insertion loop permutes the list. -/
theorem insInner_perm (lt : α → α → Bool) :
    ∀ (j : Nat) (l : List α), (insInner lt l j).Perm l
  | 0, l => List.Perm.refl l
  | j + 1, l => by
    cases h1 : l[j + 1]? with
    | none =>
      rw [insInner_none1 lt l j h1]
    | some ej =>
      cases h2 : l[j]? with
      | none =>
        rw [insInner_none2 lt l j h2]
      | some ejm =>
        rw [insInner_succ lt l j ej ejm h1 h2]
        by_cases hlt : lt ej ejm = true
        · rw [if_pos hlt]
          exact (insInner_perm lt j (swapL l (j + 1) j)).trans (swapL_perm l (j + 1) j)
        · rw [if_neg hlt]

/-- The inner insertion loop touches only positions up to its index. -/
theorem insInner_frame (lt : α → α → Bool) :
    ∀ (j : Nat) (l : List α) (k : Nat), j < k → (insInner lt l j)[k]? = l[k]?
  | 0, _, _, _ => rfl
  | j + 1, l, k, hk => by
    cases h1 : l[j + 1]? with
    | none => rw [insInner_none1 lt l j h1]
    | some ej =>
      cases h2 : l[j]? with
      | none => rw [insInner_none2 lt l j h2]
      | some ejm =>
        rw [insInner_succ lt l j ej ejm h1 h2]
        by_cases hlt : lt ej ejm = true
        · rw [if_pos hlt, insInner_frame lt j (swapL l (j + 1) j) k (by omega)]
          obtain ⟨hb1, _⟩ := List.getElem?_eq_some.mp h1
          obtain ⟨hb2, _⟩ := List.getElem?_eq_some.mp h2
          rw [swapL_getElem? l (j + 1) j k hb1 hb2,
            if_neg (by omega : ¬k = j), if_neg (by omega : ¬k = j + 1)]
        · rw [if_neg hlt]

/-- Sortedness invariant of the inner insertion loop: if positions below `j`
are sorted, positions `j` through `i` are sorted, and every element below `j`
is no greater than every element strictly between `j` and `i`, then after the
loop the whole window up to `i` is sorted. -/
theorem insInner_sorted (lt : α → α → Bool)
    (lt_asymm : ∀ a b, lt a b = true → lt b a = false)
    (nlt_trans : ∀ a b c, lt b a = false → lt c b = false → lt c a = false)
    (d : α) :
    ∀ (j : Nat) (l : List α) (i : Nat), j ≤ i → i < l.length →
    (∀ a b, a < b → b < j → lt (l.getD b d) (l.getD a d) = false) →
    (∀ a b, j ≤ a → a < b → b ≤ i → lt (l.getD b d) (l.getD a d) = false) →
    (∀ a b, a < j → j < b → b ≤ i → lt (l.getD b d) (l.getD a d) = false) →
    ∀ a b, a < b → b ≤ i →
      lt ((insInner lt l j).getD b d) ((insInner lt l j).getD a d) = false
  | 0, l, i, _, _, _, hB, _ => by
    intro a b hab hbi
    unfold insInner
    exact hB a b (Nat.zero_le a) hab hbi
  | j + 1, l, i, hji, hil, hA, hB, hC => by
    intro a b hab hbi
    have hj1 : j + 1 < l.length := by omega
    have hj0 : j < l.length := by omega
    have h1 : l[j + 1]? = some (l.get ⟨j + 1, hj1⟩) := by
      rw [List.getElem?_eq_getElem hj1]; rfl
    have h2 : l[j]? = some (l.get ⟨j, hj0⟩) := by
      rw [List.getElem?_eq_getElem hj0]; rfl
    have hgd1 : l.getD (j + 1) d = l.get ⟨j + 1, hj1⟩ := by
      rw [List.getD_eq_getElem?_getD, h1]; rfl
    have hgd2 : l.getD j d = l.get ⟨j, hj0⟩ := by
      rw [List.getD_eq_getElem?_getD, h2]; rfl
    rw [insInner_succ lt l j (l.get ⟨j + 1, hj1⟩) (l.get ⟨j, hj0⟩) h1 h2]
    by_cases hlt : lt (l.get ⟨j + 1, hj1⟩) (l.get ⟨j, hj0⟩) = true
    · rw [if_pos hlt]
      have hsw : ∀ k, (swapL l (j + 1) j).getD k d =
          if k = j then l.getD (j + 1) d else if k = j + 1 then l.getD j d
          else l.getD k d := fun k => swapL_getD l (j + 1) j k d hj1 hj0
      refine insInner_sorted lt lt_asymm nlt_trans d j (swapL l (j + 1) j) i
        (by omega) (by rw [swapL_length]; omega) ?_ ?_ ?_ a b hab hbi
      · intro a b hab hbj
        rw [hsw, hsw, if_neg (by omega : ¬b = j), if_neg (by omega : ¬b = j + 1),
          if_neg (by omega : ¬a = j), if_neg (by omega : ¬a = j + 1)]
        exact hA a b hab (by omega)
      · intro a b hja hab hbi
        rw [hsw, hsw]
        by_cases hbj1 : b = j
        · omega
        · rw [if_neg hbj1]
          by_cases hbj2 : b = j + 1
          · rw [if_pos hbj2]
            have haeq : a = j := by omega
            rw [if_pos haeq, hgd1, hgd2]
            exact lt_asymm _ _ hlt
          · rw [if_neg hbj2]
            by_cases haj1 : a = j
            · rw [if_pos haj1]
              exact hB (j + 1) b (by omega) (by omega) hbi
            · rw [if_neg haj1]
              by_cases haj2 : a = j + 1
              · rw [if_pos haj2]
                exact hC j b (by omega) (by omega) hbi
              · rw [if_neg haj2]
                exact hB a b (by omega) hab hbi
      · intro a b haj hjb hbi
        rw [hsw, hsw, if_neg (by omega : ¬b = j), if_neg (by omega : ¬a = j),
          if_neg (by omega : ¬a = j + 1)]
        by_cases hbj : b = j + 1
        · rw [if_pos hbj]
          exact hA a j haj (by omega)
        · rw [if_neg hbj]
          exact hC a b (by omega) (by omega) hbi
    · rw [if_neg hlt]
      have hltf : lt (l.getD (j + 1) d) (l.getD j d) = false := by
        rw [hgd1, hgd2]
        exact Bool.eq_false_iff.mpr hlt
      by_cases hbj : b ≤ j
      · exact hA a b hab (by omega)
      · by_cases haj : j + 1 ≤ a
        · exact hB a b haj hab hbi
        · by_cases hbeq : b = j + 1
          · subst hbeq
            by_cases haeq : a = j
            · subst haeq
              exact hltf
            · exact nlt_trans (l.getD a d) (l.getD j d) (l.getD (j + 1) d)
                (hA a j (by omega) (by omega)) hltf
          · exact hC a b (by omega) (by omega) hbi

/-- The outer insertion loop preserves length. -/
theorem insOuter_length (lt : α → α → Bool) (n : Nat) :
    ∀ (i : Nat) (l : List α), (insOuter lt l n i).length = l.length := by
  intro i l
  induction l, n, i using insOuter.induct lt with
  | case1 l n i hi ih =>
    unfold insOuter
    rw [if_pos hi, ih, insInner_length]
  | case2 l n i hi =>
    unfold insOuter
    rw [if_neg hi]

/-- The outer insertion loop permutes the list. -/
theorem insOuter_perm (lt : α → α → Bool) (n : Nat) :
    ∀ (i : Nat) (l : List α), (insOuter lt l n i).Perm l := by
  intro i l
  induction l, n, i using insOuter.induct lt with
  | case1 l n i hi ih =>
    unfold insOuter
    rw [if_pos hi]
    exact ih.trans (insInner_perm lt i l)
  | case2 l n i hi =>
    unfold insOuter
    rw [if_neg hi]

/-- Sortedness of the outer insertion loop: a sorted prefix below `i` grows to
cover the whole window below `n`. -/
theorem insOuter_sorted (lt : α → α → Bool)
    (lt_asymm : ∀ a b, lt a b = true → lt b a = false)
    (nlt_trans : ∀ a b c, lt b a = false → lt c b = false → lt c a = false)
    (d : α) (n : Nat) :
    ∀ (i : Nat) (l : List α), n ≤ l.length →
    (∀ a b, a < b → b < i → lt (l.getD b d) (l.getD a d) = false) →
    ∀ a b, a < b → b < n →
      lt ((insOuter lt l n i).getD b d) ((insOuter lt l n i).getD a d) = false := by
  intro i l
  induction l, n, i using insOuter.induct lt with
  | case1 l n i hi ih =>
    intro hn hpre a b hab hbn
    unfold insOuter
    rw [if_pos hi]
    refine ih ?_ ?_ a b hab hbn
    · rw [insInner_length]
      exact hn
    · intro a b hab hbi
      exact insInner_sorted lt lt_asymm nlt_trans d i l i (le_refl i) (by omega)
        hpre (fun a b ha hab hbi => by omega) (fun a b ha hab hbi => by omega)
        a b hab (by omega)
  | case2 l n i hi =>
    intro hn hpre a b hab hbn
    unfold insOuter
    rw [if_neg hi]
    exact hpre a b hab (by omega)

/-- The partition loop preserves length. -/
theorem partLoop_length (lt : α → α → Bool) (pivot : α) :
    ∀ (l : List α) (i1 j high : Nat),
    (partLoop lt pivot l i1 j high).1.length = l.length := by
  intro l i1 j high
  induction l, i1, j, high using partLoop.induct lt pivot with
  | case1 l i1 j high hj ej hget hlt ih =>
    unfold partLoop
    simp only [if_pos hj, hget, if_pos hlt]
    rw [ih, swapL_length]
  | case2 l i1 j high hj ej hget hlt ih =>
    unfold partLoop
    simp only [if_pos hj, hget, if_neg hlt]
    exact ih
  | case3 l i1 j high hj hget ih =>
    unfold partLoop
    simp only [if_pos hj, hget]
    exact ih
  | case4 l i1 j high hj =>
    unfold partLoop
    simp only [if_neg hj]

/-- The partition loop permutes the list. -/
theorem partLoop_perm (lt : α → α → Bool) (pivot : α) :
    ∀ (l : List α) (i1 j high : Nat),
    (partLoop lt pivot l i1 j high).1.Perm l := by
  intro l i1 j high
  induction l, i1, j, high using partLoop.induct lt pivot with
  | case1 l i1 j high hj ej hget hlt ih =>
    unfold partLoop
    simp only [if_pos hj, hget, if_pos hlt]
    exact ih.trans (swapL_perm l i1 j)
  | case2 l i1 j high hj ej hget hlt ih =>
    unfold partLoop
    simp only [if_pos hj, hget, if_neg hlt]
    exact ih
  | case3 l i1 j high hj hget ih =>
    unfold partLoop
    simp only [if_pos hj, hget]
    exact ih
  | case4 l i1 j high hj =>
    unfold partLoop
    simp only [if_neg hj]
    exact List.Perm.refl l

/-- The partition loop touches only the window `[i1, high)`. -/
theorem partLoop_frame (lt : α → α → Bool) (pivot : α) :
    ∀ (l : List α) (i1 j high : Nat), i1 ≤ j →
    ∀ k, k < i1 ∨ high ≤ k → (partLoop lt pivot l i1 j high).1[k]? = l[k]? := by
  intro l i1 j high
  induction l, i1, j, high using partLoop.induct lt pivot with
  | case1 l i1 j high hj ej hget hlt ih =>
    intro hij k hk
    unfold partLoop
    simp only [if_pos hj, hget, if_pos hlt]
    have hjlen : j < l.length := (List.getElem?_eq_some.mp hget).1
    rw [ih (by omega) k (by omega),
      swapL_getElem? l i1 j k (by omega) hjlen,
      if_neg (by omega : ¬k = j), if_neg (by omega : ¬k = i1)]
  | case2 l i1 j high hj ej hget hlt ih =>
    intro hij k hk
    unfold partLoop
    simp only [if_pos hj, hget, if_neg hlt]
    exact ih (by omega) k hk
  | case3 l i1 j high hj hget ih =>
    intro hij k hk
    unfold partLoop
    simp only [if_pos hj, hget]
    exact ih (by omega) k hk
  | case4 l i1 j high hj =>
    intro hij k hk
    unfold partLoop
    simp only [if_neg hj]

/-- Partition invariant of the Lomuto loop: on exit, the window below the
returned pivot slot holds only elements strictly below the pivot, the window
from the slot up to `high` holds only elements not below it. -/
theorem partLoop_spec (lt : α → α → Bool) (pivot : α) (d : α) :
    ∀ (l : List α) (i1 j high : Nat), i1 ≤ j → j ≤ high → high ≤ l.length →
    ∀ lo, lo ≤ i1 →
    (∀ k, lo ≤ k → k < i1 → lt (l.getD k d) pivot = true) →
    (∀ k, i1 ≤ k → k < j → lt (l.getD k d) pivot = false) →
    (∀ k, lo ≤ k → k < (partLoop lt pivot l i1 j high).2 →
        lt ((partLoop lt pivot l i1 j high).1.getD k d) pivot = true) ∧
    (∀ k, (partLoop lt pivot l i1 j high).2 ≤ k → k < high →
        lt ((partLoop lt pivot l i1 j high).1.getD k d) pivot = false) := by
  intro l i1 j high
  induction l, i1, j, high using partLoop.induct lt pivot with
  | case1 l i1 j high hj ej hget hlt ih =>
    intro h1 h2 h3 lo hlo hA hB
    unfold partLoop
    simp only [if_pos hj, hget, if_pos hlt]
    have hjlen : j < l.length := (List.getElem?_eq_some.mp hget).1
    have hi1len : i1 < l.length := by omega
    have hej : l.getD j d = ej := by
      rw [List.getD_eq_getElem?_getD, hget]; rfl
    have hsw : ∀ k, (swapL l i1 j).getD k d =
        if k = j then l.getD i1 d else if k = i1 then l.getD j d
        else l.getD k d := fun k => swapL_getD l i1 j k d hi1len hjlen
    refine ih (by omega) (by omega) (by rw [swapL_length]; omega) lo (by omega) ?_ ?_
    · intro k hk1 hk2
      rw [hsw]
      by_cases hkj : k = j
      · rw [if_pos hkj]
        have hij : i1 = j := by omega
        have hv : l.getD i1 d = ej := by rw [hij, hej]
        rw [hv]
        exact hlt
      · rw [if_neg hkj]
        by_cases hki : k = i1
        · rw [if_pos hki, hej]
          exact hlt
        · rw [if_neg hki]
          exact hA k hk1 (by omega)
    · intro k hk1 hk2
      rw [hsw]
      by_cases hkj : k = j
      · rw [if_pos hkj]
        exact hB i1 (le_refl i1) (by omega)
      · rw [if_neg hkj]
        by_cases hki : k = i1
        · omega
        · rw [if_neg hki]
          exact hB k (by omega) (by omega)
  | case2 l i1 j high hj ej hget hlt ih =>
    intro h1 h2 h3 lo hlo hA hB
    unfold partLoop
    simp only [if_pos hj, hget, if_neg hlt]
    have hej : l.getD j d = ej := by
      rw [List.getD_eq_getElem?_getD, hget]; rfl
    refine ih (by omega) (by omega) h3 lo hlo hA ?_
    intro k hk1 hk2
    by_cases hkj : k = j
    · rw [hkj, hej]
      exact Bool.eq_false_iff.mpr hlt
    · exact hB k hk1 (by omega)
  | case3 l i1 j high hj hget ih =>
    intro h1 h2 h3 lo hlo hA hB
    exfalso
    rcases Nat.lt_or_ge j l.length with h | h
    · rw [List.getElem?_eq_getElem h] at hget
      exact absurd hget (by simp)
    · omega
  | case4 l i1 j high hj =>
    intro h1 h2 h3 lo hlo hA hB
    unfold partLoop
    simp only [if_neg hj]
    exact ⟨hA, fun k hk1 hk2 => hB k hk1 (by omega)⟩

/-- Reading the window `[lo, hi]` of a list at a window-relative index. -/
theorem window_getElem? (l : List α) (lo hi k : Nat) (h1 : lo ≤ k) (h2 : k ≤ hi) :
    ((l.drop lo).take (hi + 1 - lo))[k - lo]? = l[k]? := by
  rw [List.getElem?_take, if_pos (by omega), List.getElem?_drop]
  congr 1
  omega

/-- An in-range element belongs to its window. -/
theorem getD_mem_window (l : List α) (lo hi k : Nat) (d : α) (h1 : lo ≤ k)
    (h2 : k ≤ hi) (h3 : k < l.length) :
    l.getD k d ∈ (l.drop lo).take (hi + 1 - lo) := by
  have he : l[k]? = some (l.getD k d) := by
    rw [List.getD_eq_getElem?_getD, List.getElem?_eq_getElem h3]
    rfl
  have hw := window_getElem? l lo hi k h1 h2
  rw [he] at hw
  exact List.mem_iff_getElem?.mpr ⟨k - lo, hw⟩

/-- A member of the window `[lo, hi]` sits at some absolute index in `[lo, hi]`. -/
theorem mem_window_index (l : List α) (lo hi : Nat) (x : α)
    (h : x ∈ (l.drop lo).take (hi + 1 - lo)) :
    ∃ k, lo ≤ k ∧ k ≤ hi ∧ l[k]? = some x := by
  obtain ⟨m, hm⟩ := List.mem_iff_getElem?.mp h
  rw [List.getElem?_take] at hm
  by_cases hmlt : m < hi + 1 - lo
  · rw [if_pos hmlt, List.getElem?_drop] at hm
    exact ⟨lo + m, by omega, by omega, hm⟩
  · rw [if_neg hmlt] at hm
    exact absurd hm (by simp)

/-- Two permuted lists that agree outside a window have permuted windows. -/
theorem window_perm [DecidableEq α] (l₁ l₂ : List α) (lo hi : Nat)
    (hlo : lo ≤ hi + 1) (hp : l₁.Perm l₂)
    (hf : ∀ k, k < lo ∨ hi < k → l₁[k]? = l₂[k]?) :
    ((l₁.drop lo).take (hi + 1 - lo)).Perm ((l₂.drop lo).take (hi + 1 - lo)) := by
  have htake : l₁.take lo = l₂.take lo := by
    apply List.ext_getElem?
    intro n
    rw [List.getElem?_take, List.getElem?_take]
    by_cases hn : n < lo
    · rw [if_pos hn, if_pos hn]
      exact hf n (Or.inl hn)
    · rw [if_neg hn, if_neg hn]
  have hdrop : l₁.drop (hi + 1) = l₂.drop (hi + 1) := by
    apply List.ext_getElem?
    intro n
    rw [List.getElem?_drop, List.getElem?_drop]
    exact hf (hi + 1 + n) (Or.inr (by omega))
  have hd1 : l₁ = l₁.take lo ++ ((l₁.drop lo).take (hi + 1 - lo) ++ l₁.drop (hi + 1)) := by
    conv_lhs => rw [← List.take_append_drop lo l₁]
    congr 1
    conv_lhs => rw [← List.take_append_drop (hi + 1 - lo) (l₁.drop lo)]
    congr 1
    rw [List.drop_drop]
    congr 1
    omega
  have hd2 : l₂ = l₂.take lo ++ ((l₂.drop lo).take (hi + 1 - lo) ++ l₂.drop (hi + 1)) := by
    conv_lhs => rw [← List.take_append_drop lo l₂]
    congr 1
    conv_lhs => rw [← List.take_append_drop (hi + 1 - lo) (l₂.drop lo)]
    congr 1
    rw [List.drop_drop]
    congr 1
    omega
  rw [List.perm_iff_count]
  intro a
  have hc := List.perm_iff_count.mp hp a
  rw [hd1, hd2, htake, hdrop] at hc
  rw [List.count_append, List.count_append, List.count_append, List.count_append] at hc
  omega

/-- Quicksort preserves length. -/
theorem qs_length (lt : α → α → Bool) :
    ∀ (l : List α) (low high : Nat), (qs lt l low high).length = l.length := by
  intro l low high
  induction l, low, high using qs.induct lt with
  | case1 l low high hle =>
    unfold qs
    rw [if_pos hle]
  | case2 l low high hle hget =>
    unfold qs
    rw [if_neg hle]
    simp only [hget]
  | case3 l low high hle pivot hget p l2 iha ihb ihc =>
    rw [show l2 = swapL p.1 p.2 high from rfl,
      show p = partLoop lt pivot l low low high from rfl] at ihc
    unfold qs
    rw [if_neg hle]
    simp only [hget]
    rw [ihc, ihb, swapL_length, partLoop_length]

/-- Quicksort permutes the list. -/
theorem qs_perm (lt : α → α → Bool) :
    ∀ (l : List α) (low high : Nat), (qs lt l low high).Perm l := by
  intro l low high
  induction l, low, high using qs.induct lt with
  | case1 l low high hle =>
    unfold qs
    rw [if_pos hle]
  | case2 l low high hle hget =>
    unfold qs
    rw [if_neg hle]
    simp only [hget]
    exact List.Perm.refl l
  | case3 l low high hle pivot hget p l2 iha ihb ihc =>
    rw [show l2 = swapL p.1 p.2 high from rfl,
      show p = partLoop lt pivot l low low high from rfl] at ihc
    unfold qs
    rw [if_neg hle]
    simp only [hget]
    exact ihc.trans (ihb.trans ((swapL_perm _ _ _).trans (partLoop_perm lt pivot l low low high)))

/-- Quicksort touches only the window `[low, high]`. -/
theorem qs_frame (lt : α → α → Bool) :
    ∀ (l : List α) (low high : Nat) (k : Nat), k < low ∨ high < k →
    (qs lt l low high)[k]? = l[k]? := by
  intro l low high
  induction l, low, high using qs.induct lt with
  | case1 l low high hle =>
    intro k hk
    unfold qs
    rw [if_pos hle]
  | case2 l low high hle hget =>
    intro k hk
    unfold qs
    rw [if_neg hle]
    simp only [hget]
  | case3 l low high hle pivot hget p l2 iha ihb ihc =>
    intro k hk
    rw [show l2 = swapL p.1 p.2 high from rfl,
      show p = partLoop lt pivot l low low high from rfl] at ihc
    unfold qs
    rw [if_neg hle]
    simp only [hget]
    have hb := partLoop_snd_le lt pivot l low low high (le_refl low) (by omega)
    have hhlen : high < l.length := (List.getElem?_eq_some.mp hget).1
    have hplen : (partLoop lt pivot l low low high).1.length = l.length :=
      partLoop_length lt pivot l low low high
    rw [ihc k (by omega), ihb k (by omega),
      swapL_getElem? (partLoop lt pivot l low low high).1
        (partLoop lt pivot l low low high).2 high k (by omega) (by omega),
      if_neg (by omega : ¬k = high), if_neg (by omega : ¬k = (partLoop lt pivot l low low high).2),
      partLoop_frame lt pivot l low low high (le_refl low) k (by omega)]

/-- Equal reads give equal reads-with-default. -/
theorem getD_eq_of_getElem? (l₁ l₂ : List α) (k : Nat) (d : α)
    (h : l₁[k]? = l₂[k]?) : l₁.getD k d = l₂.getD k d := by
  rw [List.getD_eq_getElem?_getD, h, ← List.getD_eq_getElem?_getD]

/-- Quicksort on an empty or inverted window is the identity. -/
theorem qs_stop (lt : α → α → Bool) (l : List α) (low high : Nat)
    (h : high ≤ low) : qs lt l low high = l := by
  unfold qs
  rw [if_pos h]

/-- A property holding on a window survives sorting of that window: transfer
through the window permutation. -/
theorem window_value_transfer [DecidableEq α] (r l : List α) (lo hi k : Nat)
    (d : α) (P : α → Prop)
    (hperm : r.Perm l) (hframe : ∀ k, k < lo ∨ hi < k → r[k]? = l[k]?)
    (hvals : ∀ m, lo ≤ m → m ≤ hi → m < l.length → P (l.getD m d))
    (hk1 : lo ≤ k) (hk2 : k ≤ hi) (hk3 : k < r.length) :
    P (r.getD k d) := by
  have hmem : r.getD k d ∈ (r.drop lo).take (hi + 1 - lo) :=
    getD_mem_window r lo hi k d hk1 hk2 hk3
  have hwp := window_perm r l lo hi (by omega) hperm hframe
  have hmem2 := hwp.mem_iff.mp hmem
  obtain ⟨m, hm1, hm2, hm3⟩ := mem_window_index l lo hi _ hmem2
  have hmlen : m < l.length := (List.getElem?_eq_some.mp hm3).1
  have hval : l.getD m d = r.getD k d := by
    rw [List.getD_eq_getElem?_getD, hm3]
    rfl
  rw [← hval]
  exact hvals m hm1 hm2 hmlen

/-- Gluing a partitioned, recursively sorted list: window below the pivot slot
sorted and below the pivot, slot holds the pivot, window above sorted and not
below the pivot — the whole window is sorted. -/
theorem sorted_glue (lt : α → α → Bool)
    (lt_asymm : ∀ a b, lt a b = true → lt b a = false)
    (nlt_trans : ∀ a b c, lt b a = false → lt c b = false → lt c a = false)
    (d : α) (r : List α) (low piv high : Nat) (pivot : α)
    (hA : ∀ k, low ≤ k → k < piv → lt (r.getD k d) pivot = true)
    (hpiv : r.getD piv d = pivot)
    (hB : ∀ k, piv < k → k ≤ high → lt (r.getD k d) pivot = false)
    (hL : ∀ a b, low ≤ a → a < b → b < piv →
        lt (r.getD b d) (r.getD a d) = false)
    (hR : ∀ a b, piv < a → a < b → b ≤ high →
        lt (r.getD b d) (r.getD a d) = false) :
    ∀ a b, low ≤ a → a < b → b ≤ high →
      lt (r.getD b d) (r.getD a d) = false := by
  intro a b hla hab hbh
  rcases Nat.lt_trichotomy b piv with hb | hb | hb
  · exact hL a b hla hab hb
  · rw [hb, hpiv]
    exact lt_asymm _ _ (hA a hla (by omega))
  · rcases Nat.lt_trichotomy a piv with ha | ha | ha
    · exact nlt_trans _ pivot _ (lt_asymm _ _ (hA a hla ha)) (hB b hb hbh)
    · rw [ha, hpiv]
      exact hB b hb hbh
    · exact hR a b ha hab hbh

/-- The inductive step of quicksort sortedness, over abstract names for the
partitioned list, the swapped list and the two recursive sorts. -/
theorem qs_sorted_glue [DecidableEq α] (lt : α → α → Bool)
    (lt_asymm : ∀ a b, lt a b = true → lt b a = false)
    (nlt_trans : ∀ a b c, lt b a = false → lt c b = false → lt c a = false)
    (d : α) (l P1 : List α) (low high P2 : Nat) (pivot : α)
    (L2 R1 R2 : List α)
    (hL2 : L2 = swapL P1 P2 high) (hR1 : R1 = qs lt L2 low (P2 - 1))
    (hR2 : R2 = qs lt R1 (P2 + 1) high)
    (hP2lo : low ≤ P2) (hP2hi : P2 ≤ high) (hhlen : high < l.length)
    (hPlen : P1.length = l.length)
    (hspecA : ∀ k, low ≤ k → k < P2 → lt (P1.getD k d) pivot = true)
    (hspecB : ∀ k, P2 ≤ k → k < high → lt (P1.getD k d) pivot = false)
    (hPhigh : P1.getD high d = pivot)
    (sortInner : P2 - 1 < L2.length → ∀ a b, low ≤ a → a < b → b ≤ P2 - 1 →
        lt (R1.getD b d) (R1.getD a d) = false)
    (sortOuter : high < R1.length → ∀ a b, P2 + 1 ≤ a → a < b → b ≤ high →
        lt (R2.getD b d) (R2.getD a d) = false) :
    ∀ a b, low ≤ a → a < b → b ≤ high →
      lt (R2.getD b d) (R2.getD a d) = false := by
  have hL2len : L2.length = l.length := by
    rw [hL2, swapL_length, hPlen]
  have hR1len : R1.length = l.length := by
    rw [hR1, qs_length, hL2len]
  have hR2len : R2.length = l.length := by
    rw [hR2, qs_length, hR1len]
  have hperm1 : R1.Perm L2 := by
    rw [hR1]
    exact qs_perm lt L2 low (P2 - 1)
  have hframe1 : ∀ k, k < low ∨ P2 - 1 < k → R1[k]? = L2[k]? := by
    rw [hR1]
    exact qs_frame lt L2 low (P2 - 1)
  have hperm2 : R2.Perm R1 := by
    rw [hR2]
    exact qs_perm lt R1 (P2 + 1) high
  have hframe2 : ∀ k, k < P2 + 1 ∨ high < k → R2[k]? = R1[k]? := by
    rw [hR2]
    exact qs_frame lt R1 (P2 + 1) high
  have hL2getD : ∀ k, L2.getD k d =
      if k = high then P1.getD P2 d else if k = P2 then P1.getD high d
      else P1.getD k d := by
    intro k
    rw [hL2]
    exact swapL_getD P1 P2 high k d (by omega) (by omega)
  have hL2A : ∀ k, low ≤ k → k < P2 → lt (L2.getD k d) pivot = true := by
    intro k hk1 hk2
    rw [hL2getD, if_neg (by omega : ¬k = high), if_neg (by omega : ¬k = P2)]
    exact hspecA k hk1 hk2
  have hL2piv : L2.getD P2 d = pivot := by
    rw [hL2getD]
    by_cases hph : P2 = high
    · rw [if_pos hph, hph, hPhigh]
    · rw [if_neg hph, if_pos rfl, hPhigh]
  have hL2B : ∀ k, P2 < k → k ≤ high → lt (L2.getD k d) pivot = false := by
    intro k hk1 hk2
    rw [hL2getD]
    by_cases hkh : k = high
    · rw [if_pos hkh]
      exact hspecB P2 (le_refl P2) (by omega)
    · rw [if_neg hkh, if_neg (by omega : ¬k = P2)]
      exact hspecB k (by omega) (by omega)
  have hR1A : ∀ k, low ≤ k → k < P2 → lt (R1.getD k d) pivot = true := by
    intro k hk1 hk2
    exact window_value_transfer R1 L2 low (P2 - 1) k d (fun x => lt x pivot = true)
      hperm1 hframe1 (fun m hm1 hm2 _ => hL2A m hm1 (by omega))
      hk1 (by omega) (by omega)
  have hR1piv : R1.getD P2 d = pivot := by
    by_cases h0 : P2 - 1 < P2
    · rw [getD_eq_of_getElem? R1 L2 P2 d (hframe1 P2 (Or.inr h0))]
      exact hL2piv
    · have hP20 : P2 = 0 := by omega
      have hlow0 : low = 0 := by omega
      have : R1 = L2 := by
        rw [hR1, hP20, hlow0]
        exact qs_stop lt L2 0 (0 - 1) (by omega)
      rw [this, hP20]
      rw [hP20] at hL2piv
      exact hL2piv
  have hR1B : ∀ k, P2 < k → k ≤ high → lt (R1.getD k d) pivot = false := by
    intro k hk1 hk2
    rw [getD_eq_of_getElem? R1 L2 k d (hframe1 k (Or.inr (by omega)))]
    exact hL2B k hk1 hk2
  have hR1sortL : ∀ a b, low ≤ a → a < b → b < P2 →
      lt (R1.getD b d) (R1.getD a d) = false := by
    intro a b ha hab hb
    exact sortInner (by omega) a b ha hab (by omega)
  have hR2A : ∀ k, low ≤ k → k < P2 → lt (R2.getD k d) pivot = true := by
    intro k hk1 hk2
    rw [getD_eq_of_getElem? R2 R1 k d (hframe2 k (Or.inl (by omega)))]
    exact hR1A k hk1 hk2
  have hR2piv : R2.getD P2 d = pivot := by
    rw [getD_eq_of_getElem? R2 R1 P2 d (hframe2 P2 (Or.inl (by omega)))]
    exact hR1piv
  have hR2B : ∀ k, P2 < k → k ≤ high → lt (R2.getD k d) pivot = false := by
    intro k hk1 hk2
    exact window_value_transfer R2 R1 (P2 + 1) high k d (fun x => lt x pivot = false)
      hperm2 hframe2 (fun m hm1 hm2 _ => hR1B m (by omega) hm2)
      (by omega) hk2 (by omega)
  have hR2sortL : ∀ a b, low ≤ a → a < b → b < P2 →
      lt (R2.getD b d) (R2.getD a d) = false := by
    intro a b ha hab hb
    rw [getD_eq_of_getElem? R2 R1 a d (hframe2 a (Or.inl (by omega))),
      getD_eq_of_getElem? R2 R1 b d (hframe2 b (Or.inl (by omega)))]
    exact hR1sortL a b ha hab hb
  have hR2sortR : ∀ a b, P2 < a → a < b → b ≤ high →
      lt (R2.getD b d) (R2.getD a d) = false := by
    intro a b ha hab hb
    exact sortOuter (by omega) a b (by omega) hab hb
  exact sorted_glue lt lt_asymm nlt_trans d R2 low P2 high pivot
    hR2A hR2piv hR2B hR2sortL hR2sortR

/-- Quicksort sorts its window. -/
theorem qs_sorted [DecidableEq α] (lt : α → α → Bool)
    (lt_asymm : ∀ a b, lt a b = true → lt b a = false)
    (nlt_trans : ∀ a b c, lt b a = false → lt c b = false → lt c a = false)
    (d : α) :
    ∀ (l : List α) (low high : Nat), high < l.length →
    ∀ a b, low ≤ a → a < b → b ≤ high →
    lt ((qs lt l low high).getD b d) ((qs lt l low high).getD a d) = false := by
  intro l low high
  induction l, low, high using qs.induct lt with
  | case1 l low high hle =>
    intro hhlen a b hla hab hbh
    omega
  | case2 l low high hle hget =>
    intro hhlen a b hla hab hbh
    rw [List.getElem?_eq_getElem hhlen] at hget
    exact absurd hget (by simp)
  | case3 l low high hle pivot hget p l2 iha ihb ihc =>
    intro hhlen
    rw [show l2 = swapL p.1 p.2 high from rfl,
      show p = partLoop lt pivot l low low high from rfl] at ihc
    unfold qs
    rw [if_neg hle]
    simp only [hget]
    have hb2 := partLoop_snd_le lt pivot l low low high (le_refl low) (by omega)
    have hspec := partLoop_spec lt pivot d l low low high (le_refl low) (by omega)
      (by omega) low (le_refl low) (fun k hk1 hk2 => absurd hk2 (by omega))
      (fun k hk1 hk2 => absurd hk2 (by omega))
    have hPhigh : (partLoop lt pivot l low low high).1.getD high d = pivot := by
      rw [List.getD_eq_getElem?_getD,
        partLoop_frame lt pivot l low low high (le_refl low) high
          (Or.inr (le_refl high)), hget]
      rfl
    exact qs_sorted_glue lt lt_asymm nlt_trans d l
      (partLoop lt pivot l low low high).1 low high
      (partLoop lt pivot l low low high).2 pivot _ _ _ rfl rfl rfl
      hb2.1 hb2.2 hhlen (partLoop_length lt pivot l low low high)
      hspec.1 hspec.2 hPhigh ihb ihc

/-- `sortDirEntries` preserves length. -/
theorem sortDirEntries_length (entries : List DirEntryE) :
    (sortDirEntries entries).length = entries.length := by
  show (if entries.length < 20 then insOuter entLt entries entries.length 1
    else qs entLt entries 0 (entries.length - 1)).length = entries.length
  by_cases h : entries.length < 20
  · rw [if_pos h, insOuter_length]
  · rw [if_neg h, qs_length]

/-- `sortDirEntries` returns a permutation of its input. -/
theorem sortDirEntries_perm (entries : List DirEntryE) :
    (sortDirEntries entries).Perm entries := by
  show (if entries.length < 20 then insOuter entLt entries entries.length 1
    else qs entLt entries 0 (entries.length - 1)).Perm entries
  by_cases h : entries.length < 20
  · rw [if_pos h]
    exact insOuter_perm entLt entries.length 1 entries
  · rw [if_neg h]
    exact qs_perm entLt entries 0 (entries.length - 1)

/-- `sortDirEntries` output is sorted by name, read with a default. -/
theorem sortDirEntries_sorted_at (entries : List DirEntryE) (dflt : DirEntryE) :
    ∀ a b, a < b → b < entries.length →
    entLt ((sortDirEntries entries).getD b dflt)
      ((sortDirEntries entries).getD a dflt) = false := by
  intro a b hab hb
  show entLt ((if entries.length < 20 then insOuter entLt entries entries.length 1
      else qs entLt entries 0 (entries.length - 1)).getD b dflt)
    ((if entries.length < 20 then insOuter entLt entries entries.length 1
      else qs entLt entries 0 (entries.length - 1)).getD a dflt) = false
  by_cases h : entries.length < 20
  · rw [if_pos h]
    exact insOuter_sorted entLt entLt_asymm entNlt_trans dflt entries.length 1
      entries (le_refl _) (fun a b hab hb1 => absurd hab (by omega)) a b hab hb
  · rw [if_neg h]
    exact qs_sorted entLt entLt_asymm entNlt_trans dflt entries 0
      (entries.length - 1) (by omega) a b (Nat.zero_le a) hab (by omega)

/-- `sortDirEntries` output is pairwise weakly ascending by name. -/
theorem sortDirEntries_pairwise (entries : List DirEntryE) :
    (sortDirEntries entries).Pairwise (fun x y => entLt y x = false) := by
  rw [List.pairwise_iff_getElem]
  intro i j hi hj hij
  have hlen := sortDirEntries_length entries
  have e1 : (sortDirEntries entries)[i] =
      (sortDirEntries entries).getD i ⟨[], 0, []⟩ := by
    rw [List.getD_eq_getElem?_getD, List.getElem?_eq_getElem hi]
    rfl
  have e2 : (sortDirEntries entries)[j] =
      (sortDirEntries entries).getD j ⟨[], 0, []⟩ := by
    rw [List.getD_eq_getElem?_getD, List.getElem?_eq_getElem hj]
    rfl
  show entLt ((sortDirEntries entries)[j]) ((sortDirEntries entries)[i]) = false
  rw [e1, e2]
  exact sortDirEntries_sorted_at entries ⟨[], 0, []⟩ i j hij (by omega)

/-- Decoding a well-formed regular-file or directory record yields the entry
with the extracted name and the matching type bits. -/
theorem decodeRec_entry (lstat : GoStr → LstatRes) (dirPath : GoStr) (d : Dirent)
    (nm : GoStr) (hino : d.ino ≠ 0) (hnm : extractName d.nameBuf = some nm)
    (hnm1 : nm ≠ [46]) (hnm2 : nm ≠ [46, 46]) (hdt : d.dtype = 8 ∨ d.dtype = 4) :
    decodeRec lstat dirPath d =
      .entry ⟨nm, if d.dtype = 4 then ModeDir else 0, dirPath⟩ := by
  rcases hdt with h8 | h4
  · simp [decodeRec, hino, hnm, hnm1, hnm2, h8]
  · simp [decodeRec, hino, hnm, hnm1, hnm2, h4]

/-- Decoding a stream of well-formed regular-file and directory records
succeeds and returns one entry per record, in record order. -/
theorem decodeAll_good (lstat : GoStr → LstatRes) (dirPath : GoStr) :
    ∀ recs : List Dirent,
    (∀ d ∈ recs, d.ino ≠ 0 ∧
      (∃ nm, extractName d.nameBuf = some nm ∧ nm ≠ [46] ∧ nm ≠ [46, 46]) ∧
      (d.dtype = 8 ∨ d.dtype = 4)) →
    decodeAll lstat dirPath recs = .ok (recs.map fun d =>
      ⟨(extractName d.nameBuf).getD [], if d.dtype = 4 then ModeDir else 0, dirPath⟩)
  | [], _ => rfl
  | d :: ds, h => by
    obtain ⟨hino, ⟨nm, hnm, hnm1, hnm2⟩, hdt⟩ := h d (by simp)
    have hih := decodeAll_good lstat dirPath ds (fun dd hdd => h dd (by simp [hdd]))
    unfold decodeAll
    rw [decodeRec_entry lstat dirPath d nm hino hnm hnm1 hnm2 hdt, hih]
    simp [Except.map, hnm]

/-- Well-formed records split the stream into the regular files and the
directories: the record count is their sum. -/
theorem count_reg_dir : ∀ recs : List Dirent,
    (∀ d ∈ recs, d.dtype = 8 ∨ d.dtype = 4) →
    recs.length = (recs.filter fun d => d.dtype = 8).length +
      (recs.filter fun d => d.dtype = 4).length
  | [], _ => rfl
  | d :: ds, h => by
    have hih := count_reg_dir ds (fun dd hdd => h dd (by simp [hdd]))
    rcases h d (by simp) with h8 | h4
    · rw [List.filter_cons, List.filter_cons]
      rw [if_pos (by simp [h8]), if_neg (by simp [h8])]
      simp only [List.length_cons, List.length]
      omega
    · rw [List.filter_cons, List.filter_cons]
      rw [if_neg (by simp [h4]), if_pos (by simp [h4])]
      simp only [List.length_cons, List.length]
      omega

end Linux

/-- C5: for a directory whose raw records are well-formed regular files and
directories (nonzero inode, NUL-terminated name, `d_type` DT_REG or DT_DIR),
`readDirOptimized` succeeds and returns exactly N + M entries — one per
record other than `.` and `..`, the N regular files plus the M directories —
as a permutation of the decoded records sorted ascending by byte-lexicographic
name, each entry carrying `ModeDir` exactly when its record was a directory
and no type bits when it was a regular file; the `.` and `..` records are
excluded from the result. -/
theorem c5_theorem :
    (∀ (lstat : GoStr → Linux.LstatRes) (dirPath : GoStr)
        (recs : List Linux.Dirent),
      (∀ d ∈ recs, d.ino ≠ 0 ∧
        (∃ nm, Linux.extractName d.nameBuf = some nm ∧ nm ≠ [46] ∧ nm ≠ [46, 46]) ∧
        (d.dtype = 8 ∨ d.dtype = 4)) →
      ∃ entries,
        Linux.readDirOptimized (.ok recs) lstat dirPath = .ok entries ∧
        entries.Perm (recs.map fun d =>
          ⟨(Linux.extractName d.nameBuf).getD [],
            if d.dtype = 4 then Linux.ModeDir else 0, dirPath⟩) ∧
        entries.length = (recs.filter fun d => d.dtype = 8).length +
          (recs.filter fun d => d.dtype = 4).length ∧
        entries.Pairwise (fun x y => Linux.entLt y x = false) ∧
        (∀ e ∈ entries, e.name ≠ [46] ∧ e.name ≠ [46, 46] ∧
          (e.typ = Linux.ModeDir ∨ e.typ = 0))) ∧
    (∀ (lstat : GoStr → Linux.LstatRes) (dirPath : GoStr) (d : Linux.Dirent)
        (ds : List Linux.Dirent) (nm : GoStr), d.ino ≠ 0 →
      Linux.extractName d.nameBuf = some nm → (nm = [46] ∨ nm = [46, 46]) →
      Linux.decodeAll lstat dirPath (d :: ds) = Linux.decodeAll lstat dirPath ds) := by
  constructor
  · intro lstat dirPath recs hgood
    have hdec := Linux.decodeAll_good lstat dirPath recs hgood
    refine ⟨Linux.sortDirEntries (recs.map fun d =>
      ⟨(Linux.extractName d.nameBuf).getD [],
        if d.dtype = 4 then Linux.ModeDir else 0, dirPath⟩), ?_, ?_, ?_, ?_, ?_⟩
    · show (match Linux.decodeAll lstat dirPath recs with
        | Except.error er => Except.error er
        | Except.ok entries => Except.ok (Linux.sortDirEntries entries)) =
        Except.ok (Linux.sortDirEntries (recs.map fun d =>
          ⟨(Linux.extractName d.nameBuf).getD [],
            if d.dtype = 4 then Linux.ModeDir else 0, dirPath⟩))
      rw [hdec]
    · exact Linux.sortDirEntries_perm _
    · rw [Linux.sortDirEntries_length, List.length_map]
      exact Linux.count_reg_dir recs (fun d hd => (hgood d hd).2.2)
    · exact Linux.sortDirEntries_pairwise _
    · intro e he
      have hmem := (Linux.sortDirEntries_perm _).mem_iff.mp he
      obtain ⟨d, hd, hde⟩ := List.mem_map.mp hmem
      obtain ⟨hino, ⟨nm, hnm, hnm1, hnm2⟩, hdt⟩ := hgood d hd
      subst hde
      refine ⟨?_, ?_, ?_⟩
      · rw [hnm]
        exact hnm1
      · rw [hnm]
        exact hnm2
      · by_cases h4 : d.dtype = 4
        · left
          simp [h4]
        · right
          simp [h4]
  · intro lstat dirPath d ds nm hino hnm hdot
    simp [Linux.decodeAll, Linux.decodeRec, hino, hnm, hdot]

/-- C5 witness: a concrete directory — one regular file `b`, one subdirectory
`a` — enumerates to the sorted pair with the right type bits, and a `.`
record is dropped. -/
theorem c5_witness :
    (∃ entries,
      Linux.readDirOptimized
        (.ok [⟨5, 8, [98, 0]⟩, ⟨7, 4, [97, 0]⟩]) (fun _ => .err []) [47, 100] =
        .ok entries ∧
      entries.Perm ([⟨(5 : Nat), (8 : Nat), ([98, 0] : GoStr)⟩,
          ⟨7, 4, [97, 0]⟩].map fun d : Linux.Dirent =>
        ⟨(Linux.extractName d.nameBuf).getD [],
          if d.dtype = 4 then Linux.ModeDir else 0, ([47, 100] : GoStr)⟩) ∧
      entries.length = (([⟨(5 : Nat), (8 : Nat), ([98, 0] : GoStr)⟩,
          ⟨7, 4, [97, 0]⟩] : List Linux.Dirent).filter
            fun d => d.dtype = 8).length +
        (([⟨(5 : Nat), (8 : Nat), ([98, 0] : GoStr)⟩,
          ⟨7, 4, [97, 0]⟩] : List Linux.Dirent).filter
            fun d => d.dtype = 4).length ∧
      entries.Pairwise (fun x y => Linux.entLt y x = false) ∧
      (∀ e ∈ entries, e.name ≠ [46] ∧ e.name ≠ [46, 46] ∧
        (e.typ = Linux.ModeDir ∨ e.typ = 0))) ∧
    Linux.decodeAll (fun _ => .err []) [47, 100] [⟨2, 4, [46, 0]⟩] =
      Linux.decodeAll (fun _ => .err []) [47, 100] [] := by
  constructor
  · refine c5_theorem.1 (fun _ => .err []) [47, 100]
      [⟨5, 8, [98, 0]⟩, ⟨7, 4, [97, 0]⟩] ?_
    intro d hd
    rcases List.mem_cons.mp hd with h | hd2
    · subst h
      exact ⟨by decide, ⟨[98], by decide, by decide, by decide⟩, Or.inl rfl⟩
    · rcases List.mem_cons.mp hd2 with h | h3
      · subst h
        exact ⟨by decide, ⟨[97], by decide, by decide, by decide⟩, Or.inr rfl⟩
      · exact absurd h3 (by simp)
  · exact c5_theorem.2 (fun _ => .err []) [47, 100] ⟨2, 4, [46, 0]⟩ [] [46]
      (by decide) (by decide) (Or.inl rfl)

/-- C6 counterexample: a buffer holding a record with unrecognized type tag 3
and a record whose name has no NUL terminator is not fatal — both records are
silently skipped and the partial result (only the well-formed third record)
is returned as success, contradicting "no malformed record is silently
skipped, no partial result is silently returned". -/
theorem c6_counterexample :
    Linux.readDirOptimized (.ok [⟨1, 3, [97, 0]⟩, ⟨2, 8, [98]⟩, ⟨3, 8, [99, 0]⟩])
      (fun _ => .err [7]) [47, 100] = .ok [⟨[99], 0, [47, 100]⟩] := by
  simp [Linux.readDirOptimized, Linux.decodeAll, Linux.decodeRec, Linux.extractName,
    Except.map, Linux.sortDirEntries, Linux.insOuter, Linux.insInner, Linux.swapL,
    Linux.entLt, Linux.lexLt]

/-- C6 (amended): inability to open the directory is fatal and reported as a
PathError with op `"open"` carrying the directory path; an `os.Lstat` failure
in the `DT_UNKNOWN` fallback is fatal to the call and propagated, with no
partial result; but records that do not match the expected shape — inode 0,
a name window without a NUL terminator, or an unrecognized type tag — are
silently skipped rather than fatal, and enumeration continues without them. -/
theorem c6_theorem :
    (∀ (lstat : GoStr → Linux.LstatRes) (dirPath e : GoStr),
      Linux.readDirOptimized (.error e) lstat dirPath =
        .error (.pathErr (bytes "open") dirPath e)) ∧
    (∀ (lstat : GoStr → Linux.LstatRes) (dirPath : GoStr) (d : Linux.Dirent)
        (ds : List Linux.Dirent), d.ino = 0 →
      Linux.decodeAll lstat dirPath (d :: ds) = Linux.decodeAll lstat dirPath ds) ∧
    (∀ (lstat : GoStr → Linux.LstatRes) (dirPath : GoStr) (d : Linux.Dirent)
        (ds : List Linux.Dirent), Linux.extractName d.nameBuf = none →
      Linux.decodeAll lstat dirPath (d :: ds) = Linux.decodeAll lstat dirPath ds) ∧
    (∀ (lstat : GoStr → Linux.LstatRes) (dirPath : GoStr) (d : Linux.Dirent)
        (ds : List Linux.Dirent) (nm : GoStr), d.ino ≠ 0 →
      Linux.extractName d.nameBuf = some nm → nm ≠ [46] → nm ≠ [46, 46] →
      d.dtype ≠ 0 → d.dtype ≠ 1 → d.dtype ≠ 2 → d.dtype ≠ 4 → d.dtype ≠ 6 →
      d.dtype ≠ 8 → d.dtype ≠ 10 → d.dtype ≠ 12 →
      Linux.decodeAll lstat dirPath (d :: ds) = Linux.decodeAll lstat dirPath ds) ∧
    (∀ (lstat : GoStr → Linux.LstatRes) (dirPath : GoStr) (d : Linux.Dirent)
        (ds : List Linux.Dirent) (nm e : GoStr), d.ino ≠ 0 →
      Linux.extractName d.nameBuf = some nm → nm ≠ [46] → nm ≠ [46, 46] →
      d.dtype = 0 → lstat (dirPath ++ 47 :: nm) = .err e →
      Linux.decodeAll lstat dirPath (d :: ds) = .error (.raw e)) ∧
    (∀ (lstat : GoStr → Linux.LstatRes) (dirPath : GoStr)
        (recs : List Linux.Dirent) (er : Linux.RdErr),
      Linux.decodeAll lstat dirPath recs = .error er →
      Linux.readDirOptimized (.ok recs) lstat dirPath = .error er) := by
  refine ⟨fun lstat dirPath e => rfl, ?_, ?_, ?_, ?_, ?_⟩
  · intro lstat dirPath d ds h
    simp [Linux.decodeAll, Linux.decodeRec, h]
  · intro lstat dirPath d ds h
    by_cases hino : d.ino = 0
    · simp [Linux.decodeAll, Linux.decodeRec, hino]
    · simp [Linux.decodeAll, Linux.decodeRec, hino, h]
  · intro lstat dirPath d ds nm hino hnm hnm1 hnm2 h0 h1 h2 h4 h6 h8 h10 h12
    simp [Linux.decodeAll, Linux.decodeRec, hino, hnm, hnm1, hnm2,
      h0, h1, h2, h4, h6, h8, h10, h12]
  · intro lstat dirPath d ds nm e hino hnm hnm1 hnm2 hdt hl
    simp [Linux.decodeAll, Linux.decodeRec, hino, hnm, hnm1, hnm2, hdt, hl]
  · intro lstat dirPath recs er h
    show (match Linux.decodeAll lstat dirPath recs with
      | Except.error er => Except.error er
      | Except.ok entries => Except.ok (Linux.sortDirEntries entries)) =
      Except.error er
    rw [h]

/-- C6 witness: the amended failure semantics at concrete inputs — a failed
open reports the path, an inode-0 record, a terminator-less record and a
tag-3 record are each skipped, and an lstat failure on a `DT_UNKNOWN` record
aborts the whole call with the error. -/
theorem c6_witness :
    Linux.readDirOptimized (.error [5]) (fun _ => .err []) [47] =
      .error (.pathErr (bytes "open") [47] [5]) ∧
    Linux.decodeAll (fun _ => .err []) [47] [⟨0, 8, [97, 0]⟩] =
      Linux.decodeAll (fun _ => .err []) [47] [] ∧
    Linux.decodeAll (fun _ => .err []) [47] [⟨1, 8, [97]⟩] =
      Linux.decodeAll (fun _ => .err []) [47] [] ∧
    Linux.decodeAll (fun _ => .err []) [47] [⟨1, 3, [97, 0]⟩] =
      Linux.decodeAll (fun _ => .err []) [47] [] ∧
    Linux.decodeAll (fun _ => .err [9]) [47] [⟨1, 0, [97, 0]⟩] =
      .error (.raw [9]) ∧
    Linux.readDirOptimized (.ok [⟨1, 0, [97, 0]⟩]) (fun _ => .err [9]) [47] =
      .error (.raw [9]) :=
  ⟨c6_theorem.1 (fun _ => .err []) [47] [5],
   c6_theorem.2.1 (fun _ => .err []) [47] ⟨0, 8, [97, 0]⟩ [] rfl,
   c6_theorem.2.2.1 (fun _ => .err []) [47] ⟨1, 8, [97]⟩ [] (by decide),
   c6_theorem.2.2.2.1 (fun _ => .err []) [47] ⟨1, 3, [97, 0]⟩ [] [97]
     (by decide) (by decide) (by decide) (by decide) (by decide) (by decide)
     (by decide) (by decide) (by decide) (by decide) (by decide) (by decide),
   c6_theorem.2.2.2.2.1 (fun _ => .err [9]) [47] ⟨1, 0, [97, 0]⟩ [] [97] [9]
     (by decide) (by decide) (by decide) (by decide) rfl rfl,
   c6_theorem.2.2.2.2.2 (fun _ => .err [9]) [47] [⟨1, 0, [97, 0]⟩] (.raw [9])
     (by simp [Linux.decodeAll, Linux.decodeRec, Linux.extractName])⟩
